import Mathlib

/-!
Shallow embedding of the RAG context postprocessor implemented in
`src/scratchpads/chat_utils_rag.rs`, together with proofs about the
claims made by the specification of that file.

Modelling conventions:
* Rust `f32` scores are modelled as exact rationals (`Rat`).  The pipeline
  only performs comparisons, `+`, `-`, `*`, `/`, `min` and `max` on scores,
  so the algorithmic content is preserved exactly; floating-point rounding
  is abstracted away.  Float literals such as `0.001` become `1/1000`.
* The shared mutable `Arc<FileLine>` records (mutated through raw pointers
  in the source) are modelled by a single per-file store of lines;
  the flat `lines_by_useful` view is a list of references carrying the file
  path and the position of the line inside its file vector.  The `take`
  flag is modelled by the list of taken (path, position) identities
  returned by the selector.
* `HashMap` iteration order is not deterministic in Rust (`RandomState`).
  Everything that iterates over a `HashMap` is therefore modelled over an
  explicit list whose order is quantified where it matters (claim C2).
* `usize` subtraction follows release-mode wrapping semantics: in
  `colorize_minus_one(linevec, omsg.line1 - 1, omsg.line2)` a hint with
  `line1 = 0` wraps to `usize::MAX`, which makes the colored range empty;
  the model reproduces the empty range explicitly.
* External capabilities (path canonicalization `resolve`, the tokenizer
  `tok`, the hash-derived `cpath_symmetry_breaker`) are parameters of the
  model; they are code outside this repository (std / services).
-/

namespace ChatUtilsRag

/-- Scores (`f32` in the source) are modelled as exact rationals. -/
abbrev Score := Rat

/-- The slice of `SymbolInformation` that `chat_utils_rag.rs` reads:
`symbol_path`, whether `symbol_type == SymbolType::CommentDefinition`,
`full_range.start_point.row` / `end_point.row`,
`declaration_range.end_point.row`, `definition_range.start_point.row` /
`end_point.row` / `end_byte`, and `guid` (opaque; a `Nat` here). -/
structure Sym where
  symbol_path : String
  isComment : Bool
  fullStart : Nat
  fullEnd : Nat
  declEnd : Nat
  defStart : Nat
  defEnd : Nat
  defEndByte : Nat
  guid : Nat
deriving DecidableEq

/-- The slice of `ContextFile` used as a search hint by the postprocessor:
`file_name`, 1-based `line1`/`line2`, optional symbol guid (`Uuid::is_nil`
becomes `Option`), `gradient_type`, `usefulness`, `is_body_important`. -/
structure Hint where
  file_name : String
  line1 : Nat
  line2 : Nat
  symbol : Option Nat
  gradient_type : Int
  usefulness : Score
  is_body_important : Bool
deriving DecidableEq

/-- One `FileLine` record (minus the `take` flag, which is modelled by the
selector's result set, and with the `Arc<File>` back reference replaced by
the index `fid` of the creating file). -/
structure LineD where
  fid : Nat
  line_n : Nat
  line_content : String
  useful : Score
  color : String
deriving DecidableEq

/-- One `File` record: canonical path, the hash-derived
`cpath_symmetry_breaker` (an input of the model: the hash is std code),
the markup file content and symbol list (`symbols_sorted_by_path_len`). -/
structure FileRec where
  cpath : String
  breaker : Score
  content : String
  syms : List Sym
deriving DecidableEq

/-- `PostprocessSettings`. -/
structure Settings where
  useful_background : Score
  useful_symbol_default : Score
  degrade_parent_coef : Score
  degrade_body_coef : Score
  comments_propogate_up_coef : Score
  close_small_gaps : Bool
  take_floor : Score
deriving DecidableEq

/-- `PostprocessSettings::new()`. -/
def Settings.new : Settings :=
  { useful_background := 5
    useful_symbol_default := 10
    degrade_parent_coef := 3/5
    degrade_body_coef := 4/5
    comments_propogate_up_coef := 99/100
    close_small_gaps := true
    take_floor := 0 }

/-- The output `ContextFile` fields that stage 9 fills with non-default
values: `file_name`, `file_content`, `line1`, `line2`. -/
structure Excerpt where
  file_name : String
  file_content : String
  line1 : Nat
  line2 : Nat
deriving DecidableEq

/-! ### List and string helpers (kernel-evaluation friendly) -/

/-- Map with the element position, starting at `n`. -/
def mapIdxGo {α β : Type} (f : Nat → α → β) : Nat → List α → List β
  | _, [] => []
  | n, a :: rest => f n a :: mapIdxGo f (n + 1) rest

/-- Map with the element position (Rust `iter().enumerate()`). -/
def mapIdxG {α β : Type} (f : Nat → α → β) (l : List α) : List β :=
  mapIdxGo f 0 l

def nlChar : Char := '\n'

def crChar : Char := '\r'

def colonChar : Char := ':'

/-- Split a character list on newline characters (Rust `split('\n')`). -/
def splitNlGo (acc : List Char) : List Char → List String
  | [] => [String.mk acc.reverse]
  | c :: rest =>
      if c = nlChar then String.mk acc.reverse :: splitNlGo [] rest
      else splitNlGo (c :: acc) rest

/-- Rust `str::split('\n')`: the list of `\n`-separated parts, including a
final empty part when the string ends with a newline. -/
def splitNl (s : String) : List String := splitNlGo [] s.toList

/-- Drop one trailing carriage return (part of Rust `str::lines()`). -/
def stripCR (s : String) : String :=
  match s.toList.getLast? with
  | some c => if c = crChar then String.mk s.toList.dropLast else s
  | none => s

/-- Rust `str::lines()`: split on `'\n'`, drop the final empty segment
produced by a trailing newline, strip one trailing `'\r'` per line. -/
def rustLines (s : String) : List String :=
  let parts := splitNl s
  let parts :=
    match parts.getLast? with
    | some t => if t = "" then parts.dropLast else parts
    | none => parts
  parts.map stripCR

/-- Rust `a.starts_with(b)` (`b` is a prefix of `a`). -/
def rsStartsWith (a b : String) : Bool := b.toList.isPrefixOf a.toList

/-- Length of Rust `str::trim()` (whitespace stripped from both ends). -/
def trimmedLen (s : String) : Nat :=
  ((s.toList.dropWhile Char.isWhitespace).reverse.dropWhile Char.isWhitespace).length

/-- Rust `split("::")` on the character level, non-overlapping from the
left. -/
def splitColonsGo (acc : List Char) : List Char → List String
  | [] => [String.mk acc.reverse]
  | [c] => [String.mk (c :: acc).reverse]
  | c :: c2 :: rest =>
      if c = colonChar ∧ c2 = colonChar then
        String.mk acc.reverse :: splitColonsGo [] rest
      else splitColonsGo (c :: acc) (c2 :: rest)

/-- Rust `symbol_path.split("::")`. -/
def splitColons (s : String) : List String := splitColonsGo [] s.toList

/-- Rust `Vec::join("::")`. -/
def joinColons : List String → String
  | [] => ""
  | [s] => s
  | s :: s2 :: rest => s ++ "::" ++ joinColons (s2 :: rest)

/-! ### The colorizer write operations -/

/-- The per-line bias `(i as f32) * 0.001` subtracted at several write
sites. -/
def bias (i : Nat) : Score := (i : Score) / 1000

/-- `colorize_if_more_useful` (src lines 213-231): for `i` in
`line1 .. line2` (indices beyond the vector are skipped with a warning),
assign `useful - 0.001*i` and the color when the stored `useful` is
smaller or the stored color is empty. -/
def colorize_if_more_useful (lv : List LineD) (line1 line2 : Nat)
    (color : String) (useful : Score) : List LineD :=
  mapIdxG (fun i l =>
    if line1 ≤ i ∧ i < line2 then
      if l.useful < useful - bias i ∨ l.color = "" then
        { l with useful := useful - bias i, color := color }
      else l
    else l) lv

/-- `set_useful_for_line` (src lines 126-134): assign when the stored
value is smaller or the new value is negative. -/
def set_useful_for_line (l : LineD) (useful : Score) (color : String) : LineD :=
  if l.useful < useful ∨ useful < 0 then
    { l with useful := useful, color := color }
  else l

/-- `find_line_parameters` inside `color_with_gradient_type`. -/
def find_line_parameters (x1 y1 x2 y2 : Score) : Score × Score :=
  if y2 - y1 = 0 ∨ x2 - x1 = 0 then (0, 0)
  else
    let m := (y2 - y1) / (x2 - x1)
    (m, y1 - m * x1)

/-- The label `format!("gradient_type: {:?}", omsg.gradient_type)`. -/
def gradLabel (g : Int) : String := "gradient_type: " ++ toString g

/-- `color_with_gradient_type` (src lines 84-124).  `line_n` inside the
loop is the 1-based position (`enumerate` index plus one). -/
def color_with_gradient_type (omsg : Hint) (lv : List LineD) : List LineD :=
  if omsg.gradient_type < 0 ∨ omsg.gradient_type > 4 then lv
  else
    let tfade : Score := 50
    let l1 : Score := (omsg.line1 : Score)
    let l2 : Score := (omsg.line2 : Score)
    let p11 := find_line_parameters l1 omsg.usefulness (l1 - tfade) 0
    let p12 := find_line_parameters l1 omsg.usefulness (l1 + tfade) 0
    let p21 := find_line_parameters l2 omsg.usefulness (l2 - tfade) 0
    let p22 := find_line_parameters l2 omsg.usefulness (l2 + tfade) 0
    mapIdxG (fun i0 l =>
      let n : Nat := i0 + 1
      let nf : Score := (n : Score)
      let usefulness : Score :=
        if omsg.gradient_type = 0 then omsg.usefulness - nf * (1/1000)
        else if omsg.gradient_type = 1 then
          if n < omsg.line1 then max (nf * p11.1 + p11.2) 0
          else max (nf * p12.1 + p12.2) 0
        else if omsg.gradient_type = 2 then
          if n ≤ omsg.line2 then max (nf * p21.1 + p21.2) 0 else -1
        else if omsg.gradient_type = 3 then
          if n < omsg.line1 then -1 else max (nf * p12.1 + p12.2) 0
        else if omsg.gradient_type = 4 then
          max (if n < omsg.line1 then nf * p11.1 + p11.2
               else if omsg.line1 ≤ n ∧ n ≤ omsg.line2 then 100
               else nf * p22.1 + p22.2) 0
        else 0
      set_useful_for_line l usefulness (gradLabel omsg.gradient_type)) lv

/-- `colorize_minus_one` (src lines 279-291): unconditional overwrite with
`useful = -1`, `color = "disabled"` on `line1 .. line2`. -/
def colorize_minus_one (lv : List LineD) (line1 line2 : Nat) : List LineD :=
  mapIdxG (fun i l =>
    if line1 ≤ i ∧ i < line2 then { l with useful := -1, color := "disabled" }
    else l) lv

/-- `colorize_parentof` (src lines 255-277): when the stored color is a
non-empty prefix of `long_child_path`, raise `useful` to
`bg + (maxuseful - bg) * plen/long - 0.001*i` under the max rule.  The
color is left unchanged (the source only writes `useful`). -/
def colorize_parentof (lv : List LineD) (long_child_path : String)
    (bg maxuseful : Score) : List LineD :=
  mapIdxG (fun i l =>
    if rsStartsWith long_child_path l.color ∧ 0 < l.color.length then
      let plen : Score := (l.color.length : Score)
      let long : Score := (long_child_path.length : Score)
      let u := bg + (maxuseful - bg) * plen / long - bias i
      if l.useful < u then { l with useful := u } else l
    else l) lv

/-- `colorize_comments_up` (src lines 293-307): walking bottom to top,
a line with color `"comment"` inherits `next.useful * coef` when larger;
the next line's value is the already-updated one. -/
def colorize_comments_up (coef : Score) : List LineD → List LineD
  | [] => []
  | [l] => [l]
  | l :: l2 :: rest =>
      match colorize_comments_up coef (l2 :: rest) with
      | [] => [l]
      | next :: rest2 =>
          let u := next.useful * coef
          (if l.color = "comment" ∧ l.useful < u then { l with useful := u } else l)
            :: next :: rest2

/-- `downgrade_lines_if_subsymbol` (src lines 309-332): inside the range,
lines whose color is a prefix of `subsymbol` get `useful *= coef` and the
color `subsymbol`; the first/last line of the range is kept intact when
its trimmed content has length 1 (closing bracket). -/
def downgrade_lines_if_subsymbol (lv : List LineD) (line1_base0 line2_base0 : Nat)
    (subsymbol : String) (coef : Score) : List LineD :=
  mapIdxG (fun i l =>
    if line1_base0 ≤ i ∧ i < line2_base0 ∧ rsStartsWith subsymbol l.color then
      if (i = line2_base0 - 1 ∨ i = line1_base0) ∧ trimmedLen l.line_content = 1 then l
      else { l with useful := l.useful * coef, color := subsymbol }
    else l) lv

/-- Helper for stage 6: interior element becomes
`max own (min left right)` where all reads are the original values. -/
def close_gaps_go (left : Score) : List LineD → List LineD
  | [] => []
  | [l] => [l]
  | m :: r :: rest =>
      { m with useful := max m.useful (min left r.useful) }
        :: close_gaps_go m.useful (r :: rest)

/-- Stage 6 body (src lines 476-493): one-line holes are bridged; the
first and last line keep their value. -/
def close_gaps : List LineD → List LineD
  | [] => []
  | l :: rest => l :: close_gaps_go l.useful rest

/-! ### Stages 3 to 6, per file -/

/-- The symbol fill of stage 3 (src lines 366-377): each symbol colors its
full range with label `"comment"` (for `CommentDefinition`) or its
`symbol_path`, at `useful_symbol_default`. -/
def fillOneSym (st : Settings) (lv : List LineD) (s : Sym) : List LineD :=
  if s.isComment then
    colorize_if_more_useful lv s.fullStart (s.fullEnd + 1) "comment" st.useful_symbol_default
  else
    colorize_if_more_useful lv s.fullStart (s.fullEnd + 1) s.symbol_path st.useful_symbol_default

/-- Stage 3 coloring (src lines 358-379): symbol fill in list order, then
the background fill over the whole file. -/
def stage3Fill (st : Settings) (syms : List Sym) (lv : List LineD) : List LineD :=
  let lv2 := syms.foldl (fillOneSym st) lv
  colorize_if_more_useful lv2 0 lv2.length "empty" st.useful_background

/-- The `maybe_symbol` lookup of stage 4 (src lines 407-418). -/
def hintSymbol (syms : List Sym) (h : Hint) : Option Sym :=
  match h.symbol with
  | none => none
  | some g => syms.find? (fun s => s.guid == g)

/-- Stage 4 body for one hint on the file vector it resolved to
(src lines 397-444).  For a negative hint: gradient, then the
unconditional minus-one overwrite, then `continue` (no comment
propagation).  Otherwise: gradient, then symbol coloring with parent lift
(or the `"nosymb"` range), then comment propagation.  A hint with
`line1 = 0` and negative usefulness wraps `line1 - 1` to `usize::MAX` in
release mode, so the minus-one range is empty. -/
def applyHint (st : Settings) (syms : List Sym) (lv : List LineD) (h : Hint) : List LineD :=
  if lv.length = 0 then lv
  else
    let lv := color_with_gradient_type h lv
    if h.usefulness < 0 then
      if h.line1 = 0 then lv else colorize_minus_one lv (h.line1 - 1) h.line2
    else
      let lv2 :=
        match hintSymbol syms h with
        | some s =>
            if h.is_body_important then
              colorize_if_more_useful lv (max h.line1 1 - 1) h.line2 "nosymb" h.usefulness
            else
              let lv := colorize_if_more_useful lv s.fullStart (s.fullEnd + 1)
                s.symbol_path h.usefulness
              let parts := splitColons s.symbol_path
              if parts.length > 1 then
                colorize_parentof lv (joinColons parts.dropLast)
                  st.useful_symbol_default (h.usefulness * st.degrade_parent_coef)
              else lv
        | none =>
            colorize_if_more_useful lv (max h.line1 1 - 1) h.line2 "nosymb" h.usefulness
      colorize_comments_up st.comments_propogate_up_coef lv2

/-- Stage 5 body for one symbol (src lines 455-471). -/
def stage5One (st : Settings) (lv : List LineD) (s : Sym) : List LineD :=
  if s.defEndByte ≠ 0 then
    let def0 := max s.defStart (s.declEnd + 1)
    let def1 := s.defEnd + 1
    if def1 > def0 then
      downgrade_lines_if_subsymbol lv def0 def1 (s.symbol_path ++ "::body") st.degrade_body_coef
    else lv
  else lv

/-- Stage 5 (src lines 447-473): body downgrade, over the symbols in list
order. -/
def stage5 (st : Settings) (syms : List Sym) (lv : List LineD) : List LineD :=
  syms.foldl (stage5One st) lv

/-- Stage 6 (src lines 476-493): gap closing when enabled. -/
def stage6 (st : Settings) (lv : List LineD) : List LineD :=
  if st.close_small_gaps then close_gaps lv else lv

/-! ### Building the line store (stage 3 creation loop) -/

/-- One `lines_in_files` entry: the canonical path, the symmetry breaker
and symbol list of `linevec[0].fref`, and the per-file line vector. -/
structure SEntry where
  cpath : String
  breaker : Score
  syms : List Sym
  lines : List LineD
deriving DecidableEq

/-- The `Line` records created for one file (src lines 344-352):
`file_content.lines().enumerate()`. -/
def initLines (fid : Nat) (f : FileRec) : List LineD :=
  mapIdxG (fun i s =>
    { fid := fid, line_n := i, line_content := s, useful := 0, color := "" })
    (rustLines f.content)

/-- `lines_in_files.entry(cpath).or_insert(vec![]).push(...)`: append to
the existing entry for this path, or create it. -/
def pushEntry : List SEntry → FileRec → List LineD → List SEntry
  | [], f, ls => [{ cpath := f.cpath, breaker := f.breaker, syms := f.syms, lines := ls }]
  | e :: es, f, ls =>
      if e.cpath = f.cpath then { e with lines := e.lines ++ ls } :: es
      else e :: pushEntry es f ls

/-- Add one file's lines to the store; a file whose content yields no
lines creates no entry. -/
def addFile (es : List SEntry) (fid : Nat) (f : FileRec) : List SEntry :=
  let ls := initLines fid f
  if ls.isEmpty then es else pushEntry es f ls

/-- The creation loop of stage 3 (src lines 343-357), processing the
files one after another with a running file index. -/
def buildFrom : List SEntry → Nat → List FileRec → List SEntry
  | es, _, [] => es
  | es, n, f :: rest => buildFrom (addFile es n f) (n + 1) rest

/-- The line store built from the list of loaded `File` records
(`files_markup.values()`; the list order stands for the `HashMap`
iteration order). -/
def buildEntries (files : List FileRec) : List SEntry :=
  buildFrom [] 0 files

/-! ### Stages 7 to 9: sort, select, emit -/

/-- One element of the flat `lines_by_useful` view: the file path and
symmetry breaker, the position of the line inside its file vector, and
the line data. -/
structure FlatLine where
  cpath : String
  breaker : Score
  idx : Nat
  line : LineD
deriving DecidableEq

/-- The flat references into one entry. -/
def entryFlats (e : SEntry) : List FlatLine :=
  mapIdxG (fun i l => { cpath := e.cpath, breaker := e.breaker, idx := i, line := l }) e.lines

/-- The flat `lines_by_useful` vector; the entry list order stands for the
`HashMap` iteration order of the creation loop. -/
def flatLines (es : List SEntry) : List FlatLine :=
  (es.map entryFlats).flatten

/-- The sort key of stage 7: `useful + fref.cpath_symmetry_breaker`. -/
def sortKey (fl : FlatLine) : Score := fl.line.useful + fl.breaker

/-- Stable insert for a descending sort: `x` goes before the first element
whose key is `≤ key x` (so equal keys keep their input order). -/
def insD {α : Type} (key : α → Score) (x : α) : List α → List α
  | [] => [x]
  | y :: ys => if key y ≤ key x then x :: y :: ys else y :: insD key x ys

/-- Stable descending sort by `key`.  Rust `sort_by` with the comparator
`bv.partial_cmp(&av)` is a stable descending sort by the same key, and a
stable sort is uniquely determined by the key and the input order, so this
insertion sort computes the same list. -/
def sortD {α : Type} (key : α → Score) : List α → List α
  | [] => []
  | x :: xs => insD key x (sortD key xs)

/-- The sorted flat vector of stage 7 (src lines 526-530). -/
def stage79Sorted (es : List SEntry) : List FlatLine :=
  sortD sortKey (flatLines es)

/-- `tokens(file_name) + 5` overhead in multi-file mode. -/
def overheadTok (tok : String → Nat) (sfm : Bool) (c : String) : Nat :=
  if sfm then 0 else tok c + 5

/-- The selection loop of stage 8 (src lines 533-561).  State: running
token count, the `files_mentioned_set`, the `files_mentioned_sequence`,
and the taken lines so far.  Returns the final sequence and taken lines;
reaching the budget stops the whole loop (`break`), after the mention of
the breaking line's file was already recorded. -/
def selGo (tok : String → Nat) (limit : Nat) (sfm : Bool) (floor : Score) :
    List FlatLine → Nat → List String → List String → List FlatLine →
    List String × List FlatLine
  | [], _, _, seq, taken => (seq, taken)
  | fl :: rest, tc, mentioned, seq, taken =>
      if fl.line.useful ≤ floor then
        selGo tok limit sfm floor rest tc mentioned seq taken
      else if mentioned.contains fl.cpath then
        let ntokens := tok fl.line.line_content
        if tc + ntokens > limit then (seq, taken)
        else selGo tok limit sfm floor rest (tc + ntokens) mentioned seq (taken ++ [fl])
      else
        let ntokens := tok fl.line.line_content + overheadTok tok sfm fl.cpath
        let mentioned2 := fl.cpath :: mentioned
        let seq2 := seq ++ [fl.cpath]
        if tc + ntokens > limit then (seq2, taken)
        else selGo tok limit sfm floor rest (tc + ntokens) mentioned2 seq2 (taken ++ [fl])

/-- Stage 8 on the sorted vector. -/
def stage79Sel (es : List SEntry) (tok : String → Nat) (limit : Nat)
    (sfm : Bool) (floor : Score) : List String × List FlatLine :=
  selGo tok limit sfm floor (stage79Sorted es) 0 [] [] []

/-- The take-marked line identities: (file path, position in the file
vector). -/
def takenIds (taken : List FlatLine) : List (String × Nat) :=
  taken.map (fun fl => (fl.cpath, fl.idx))

/-- The elision marker emitted by stage 9. -/
def elision : String := "...\n"

/-- The mutable state of the stage 9 per-file loop (src lines 588-609). -/
structure EmitSt where
  out : String
  first_line : Nat
  last_line : Nat
  prev_line : Nat
  anything : Bool
deriving DecidableEq

/-- The stage 9 per-file loop body.  `last_line` is updated on every
iteration (before the `take` test); a taken line records `first_line`
when it is still 0, emits one elision when `i > prev_line + 1`, then its
content plus a newline. -/
def emitGo : Nat → EmitSt → List (String × Bool) → EmitSt
  | _, st, [] => st
  | i, st, (content, tk) :: rest =>
      let st := { st with last_line := i }
      if tk then
        let st := { st with first_line := if st.first_line = 0 then i else st.first_line }
        let out1 := if i > st.prev_line + 1 then st.out ++ elision else st.out
        emitGo (i + 1)
          { st with out := out1 ++ content ++ "\n", prev_line := i, anything := true } rest
      else emitGo (i + 1) st rest

/-- The stage 9 walk over one file, including the trailing elision test
`last_line > prev_line + 1` after the loop. -/
def emitFile (pairs : List (String × Bool)) : EmitSt :=
  let st := emitGo 0 { out := "", first_line := 0, last_line := 0, prev_line := 0, anything := false } pairs
  if st.last_line > st.prev_line + 1 then { st with out := st.out ++ elision } else st

/-- Stage 9 output for one entry: `None` when no line of the file was
taken (the `anything` test; this also covers the `len() == 0` guard). -/
def emitEntry (ids : List (String × Nat)) (e : SEntry) : Option Excerpt :=
  let pairs := mapIdxG (fun i l => (l.line_content, ids.contains (e.cpath, i))) e.lines
  let st := emitFile pairs
  if st.anything then
    some { file_name := e.cpath, file_content := st.out,
           line1 := st.first_line, line2 := st.last_line }
  else none

/-- `lines_in_files.get_mut(cpath)`; in stage 9 the lookup cannot fail
because every path in the sequence owns at least one line. -/
def findEntry (es : List SEntry) (c : String) : Option SEntry :=
  es.find? (fun e => e.cpath == c)

/-- `postprocess_rag_stage_7_9` (src lines 517-631): sort, select, then
emit one excerpt per file of the mention sequence that has a taken
line. -/
def postprocess_rag_stage_7_9 (es : List SEntry) (tok : String → Nat)
    (limit : Nat) (sfm : Bool) (floor : Score) : List Excerpt :=
  let sel := stage79Sel es tok limit sfm floor
  let ids := takenIds sel.2
  sel.1.filterMap (fun c => (findEntry es c).bind (emitEntry ids))

/-! ### The full pipeline -/

/-- Stages 3 to 6 on one entry, given the hints that resolved to it in
their original order.  Faithful to the source because every hint touches
exactly one file vector, and stages 3, 5, 6 are per-file. -/
def runStages (st : Settings) (e : SEntry) (hs : List Hint) : List LineD :=
  let lv := stage3Fill st e.syms e.lines
  let lv := hs.foldl (applyHint st e.syms) lv
  let lv := stage5 st e.syms lv
  stage6 st lv

/-- The hints that resolve (canonicalization plus nearest-filename
correction, modelled by `resolve`) to the path `c`, in input order. -/
def matchedHints (resolve : String → String) (c : String) (hs : List Hint) : List Hint :=
  hs.filter (fun h => resolve h.file_name == c)

/-- The store after stages 3 to 6. -/
def pipelineEntries (st : Settings) (files : List FileRec) (hints : List Hint)
    (resolve : String → String) : List SEntry :=
  (buildEntries files).map
    (fun e => { e with lines := runStages st e (matchedHints resolve e.cpath hints) })

/-- The whole postprocess pipeline with explicit settings. -/
def postprocessPipeline (st : Settings) (files : List FileRec) (hints : List Hint)
    (resolve : String → String) (tok : String → Nat) (limit : Nat) (sfm : Bool) :
    List Excerpt :=
  postprocess_rag_stage_7_9 (pipelineEntries st files hints resolve) tok limit sfm st.take_floor

/-- The taken lines of the whole pipeline (the lines whose `take` flag the
source sets to `true`). -/
def pipelineTaken (st : Settings) (files : List FileRec) (hints : List Hint)
    (resolve : String → String) (tok : String → Nat) (limit : Nat) (sfm : Bool) :
    List FlatLine :=
  (stage79Sel (pipelineEntries st files hints resolve) tok limit sfm st.take_floor).2

/-- `postprocess_at_results2` (src lines 498-515): the pipeline with the
hardcoded `PostprocessSettings::new()`. -/
def postprocess_at_results2 (files : List FileRec) (hints : List Hint)
    (resolve : String → String) (tok : String → Nat) (limit : Nat) (sfm : Bool) :
    List Excerpt :=
  postprocessPipeline Settings.new files hints resolve tok limit sfm

/-! ### Budget arithmetic -/

/-- `RESERVE_FOR_QUESTION_AND_FOLLOWUP`. -/
def RESERVE : Nat := 1024

/-- Wrapping of an `i32` arithmetic result (release mode). -/
def wrapI32 (z : Int) : Int :=
  if z % 2 ^ 32 < 2 ^ 31 then z % 2 ^ 32 else z % 2 ^ 32 - 2 ^ 32

/-- Truncation of a `usize` value to `i32` (`as i32`). -/
def toI32 (n : Nat) : Int := wrapI32 (n : Int)

/-- `max_tokens_for_rag_chat` (src lines 44-46):
`(n_ctx as i32 - maxgen as i32 - RESERVE as i32).max(0) as usize`. -/
def max_tokens_for_rag_chat (n_ctx maxgen : Nat) : Nat :=
  (max (wrapI32 (wrapI32 (toI32 n_ctx - toI32 maxgen) - (RESERVE : Int))) 0).toNat

/-! ### Basic lemmas about the helpers -/

theorem mapIdxGo_length {α β : Type} (f : Nat → α → β) :
    ∀ (n : Nat) (l : List α), (mapIdxGo f n l).length = l.length
  | _, [] => rfl
  | n, _ :: rest => by simp [mapIdxGo, mapIdxGo_length f (n + 1) rest]

theorem mapIdxG_length {α β : Type} (f : Nat → α → β) (l : List α) :
    (mapIdxG f l).length = l.length :=
  mapIdxGo_length f 0 l

theorem getElem?_mapIdxGo {α β : Type} (f : Nat → α → β) :
    ∀ (l : List α) (n i : Nat),
      (mapIdxGo f n l)[i]? = l[i]?.map (fun a => f (n + i) a)
  | [], n, i => by simp [mapIdxGo]
  | a :: rest, n, 0 => by simp [mapIdxGo]
  | a :: rest, n, i + 1 => by
      have h : n + 1 + i = n + (i + 1) := by omega
      simp only [mapIdxGo, List.getElem?_cons_succ]
      rw [getElem?_mapIdxGo f rest (n + 1) i, h]

theorem getElem?_mapIdxG {α β : Type} (f : Nat → α → β) (l : List α) (i : Nat) :
    (mapIdxG f l)[i]? = l[i]?.map (fun a => f i a) := by
  have h := getElem?_mapIdxGo f l 0 i
  simpa [mapIdxG] using h

theorem mapIdxGo_congr_id {α : Type} (f : Nat → α → α) (h : ∀ i a, f i a = a) :
    ∀ (n : Nat) (l : List α), mapIdxGo f n l = l
  | _, [] => rfl
  | n, a :: rest => by simp [mapIdxGo, h, mapIdxGo_congr_id f h (n + 1) rest]

theorem map_mapIdxGo {α β γ : Type} (f : Nat → α → β) (g : β → γ) (g0 : α → γ)
    (h : ∀ i a, g (f i a) = g0 a) :
    ∀ (n : Nat) (l : List α), (mapIdxGo f n l).map g = l.map g0
  | _, [] => rfl
  | n, a :: rest => by simp [mapIdxGo, h, map_mapIdxGo f g g0 h (n + 1) rest]

theorem mem_mapIdxGo_iff {α β : Type} (f : Nat → α → β) :
    ∀ (l : List α) (n : Nat) (b : β),
      b ∈ mapIdxGo f n l ↔ ∃ i a, l[i]? = some a ∧ b = f (n + i) a
  | [], n, b => by simp [mapIdxGo]
  | a :: rest, n, b => by
      simp only [mapIdxGo, List.mem_cons, mem_mapIdxGo_iff f rest (n + 1)]
      constructor
      · rintro (rfl | ⟨i, x, hx, rfl⟩)
        · exact ⟨0, a, by simp⟩
        · refine ⟨i + 1, x, by simpa using hx, ?_⟩
          congr 1
          omega
      · rintro ⟨i, x, hx, rfl⟩
        match i with
        | 0 => left; simp at hx; simp [hx]
        | i + 1 =>
            right
            refine ⟨i, x, by simpa using hx, ?_⟩
            congr 1
            omega

theorem strAppend_assoc (a b c : String) : a ++ b ++ c = a ++ (b ++ c) := by
  cases a; cases b; cases c
  exact congrArg String.mk (List.append_assoc _ _ _)

/-! ### Claim C9: budget arithmetic -/

theorem wrapI32_eq_self (z : Int) (h1 : -(2 ^ 31) ≤ z) (h2 : z < 2 ^ 31) :
    wrapI32 z = z := by
  unfold wrapI32
  split
  · omega
  · omega

/-- Claim C9 (counterexample): `max_tokens_for_rag_chat` truncates `n_ctx`
with `as i32`, so for `n_ctx = 2^32 + 2048`, `maxgen = 0` it returns
`1024` instead of the claimed `max(0, n_ctx - maxgen - 1024) = 2^32 + 1024`. -/
theorem budget_arithmetic_ce :
    (max_tokens_for_rag_chat (2 ^ 32 + 2048) 0 : Int) ≠
      max ((2 ^ 32 + 2048 : Int) - 0 - 1024) 0 := by decide

/-- Claim C9 (amended): for `n_ctx < 2^31` and `maxgen ≤ 2^31 - 1025`
(no `i32` truncation or wrap), `max_tokens_for_rag_chat` returns exactly
`max(0, n_ctx - maxgen - 1024)`. -/
theorem budget_arithmetic (n_ctx maxgen : Nat)
    (h1 : n_ctx < 2 ^ 31) (h2 : maxgen ≤ 2 ^ 31 - 1025) :
    (max_tokens_for_rag_chat n_ctx maxgen : Int) =
      max ((n_ctx : Int) - maxgen - 1024) 0 := by
  have hA : toI32 n_ctx = (n_ctx : Int) := by
    unfold toI32
    exact wrapI32_eq_self _ (by omega) (by omega)
  have hB : toI32 maxgen = (maxgen : Int) := by
    unfold toI32
    exact wrapI32_eq_self _ (by omega) (by omega)
  have hR : (RESERVE : Int) = 1024 := by decide
  have hC : wrapI32 ((n_ctx : Int) - (maxgen : Int)) = (n_ctx : Int) - (maxgen : Int) :=
    wrapI32_eq_self _ (by omega) (by omega)
  have hD : wrapI32 ((n_ctx : Int) - (maxgen : Int) - 1024) =
      (n_ctx : Int) - (maxgen : Int) - 1024 :=
    wrapI32_eq_self _ (by omega) (by omega)
  unfold max_tokens_for_rag_chat
  rw [hA, hB, hR, hC, hD]
  omega

theorem budget_arithmetic_witness :
    4096 < 2 ^ 31 ∧ 512 ≤ 2 ^ 31 - 1025 ∧
      (max_tokens_for_rag_chat 4096 512 : Int) = max ((4096 : Int) - 512 - 1024) 0 :=
  ⟨by decide, by decide, budget_arithmetic 4096 512 (by decide) (by decide)⟩

/-! ### Claim C8: error propagation -/

/-- The concrete malformed hint (`line1 > line2`, `usefulness ≥ 0`) used
to refute the claimed `InvalidInput` error. -/
def hMalformed : Hint :=
  { file_name := "f", line1 := 5, line2 := 2, symbol := none,
    gradient_type := -1, usefulness := 1, is_body_important := false }

def hFirstTwo : Hint :=
  { file_name := "f", line1 := 1, line2 := 2, symbol := none,
    gradient_type := -1, usefulness := 50, is_body_important := false }

def fTwoLines : FileRec :=
  { cpath := "f", breaker := 0, content := "x\ny\n", syms := [] }

/-- Claim C8 (counterexample): there is no error path at all.  On an input
containing a malformed hint (`line1 = 5 > 2 = line2`, `usefulness ≥ 0`)
`postprocess_at_results2` runs the whole pipeline and returns a normal,
non-empty excerpt list, instead of the claimed single `InvalidInput`
error before any work (the Rust signature `-> Vec<ContextFile>` has no
error type; the malformed hint is merely logged).  Note `line1 = 1` in
the output reproduces the source's `first_line` bookkeeping faithfully. -/
theorem error_handling_ce :
    postprocess_at_results2 [fTwoLines] [hFirstTwo, hMalformed] id (fun _ => 1) 100 true =
      [{ file_name := "f", file_content := "x\ny\n", line1 := 1, line2 := 1 }] := by
  with_unfolding_all decide

/-- Claim C8 (amended): the entry point never reports any error; a
malformed hint with `line1 > line2` (and no symbol, no gradient) colors
an empty range: the `"nosymb"` coloring it triggers leaves the line
vector unchanged. -/
theorem error_handling_amended (lv : List LineD) (l1 l2 : Nat)
    (c : String) (u : Score) (h : l2 < l1) :
    colorize_if_more_useful lv (max l1 1 - 1) l2 c u = lv := by
  unfold colorize_if_more_useful mapIdxG
  apply mapIdxGo_congr_id
  intro i a
  rw [if_neg]
  omega

theorem error_handling_amended_witness :
    (2 : Nat) < 5 ∧
      colorize_if_more_useful
        [{ fid := 0, line_n := 0, line_content := "x", useful := 0, color := "" }]
        (max 5 1 - 1) 2 "nosymb" 1 =
      [{ fid := 0, line_n := 0, line_content := "x", useful := 0, color := "" }] :=
  ⟨by decide, error_handling_amended _ 5 2 "nosymb" 1 (by decide)⟩

/-! ### Claim C6: the colorizer write rule -/

/-- Claim C6 (counterexample): two write paths break the claimed rule.
`colorize_parentof` assigns a larger `useful` (1 becomes 5/2) but leaves
the color unchanged (`"A"`, not the new label), contradicting `when a
write assigns, it also replaces color`; and `colorize_if_more_useful`
assigns to a line whose stored color is empty even though the new value
(-5, which is neither -1 nor larger than the stored 0) does not satisfy
the claimed `exceeds or -1` condition. -/
theorem colorizer_write_rule_ce :
    colorize_parentof
        [{ fid := 0, line_n := 0, line_content := "x", useful := 1, color := "A" }]
        "A::b" 0 10 =
      [{ fid := 0, line_n := 0, line_content := "x", useful := 5/2, color := "A" }] ∧
    colorize_if_more_useful
        [{ fid := 0, line_n := 0, line_content := "x", useful := 0, color := "" }]
        0 1 "lbl" (-5) =
      [{ fid := 0, line_n := 0, line_content := "x", useful := -5, color := "lbl" }] := by
  constructor
  · with_unfolding_all decide
  · with_unfolding_all decide

/-- Claim C6 (amended): the real write rules, each characterized
pointwise.  Symbol/background fill assigns the biased value `u - 0.001*i`
exactly when it strictly exceeds the stored one or the stored color is
empty, replacing the color.  Parent lift assigns its biased value exactly
on strict exceedance and never touches any color (pointwise rule plus the
global color-map identity).  Gradient writes (`set_useful_for_line`)
assign the shape value verbatim when it strictly exceeds the stored value
or is negative (any negative value, not only -1), with no extra per-line
bias. -/
theorem colorizer_write_rule :
    (∀ (lv : List LineD) (l1 l2 : Nat) (c : String) (u : Score) (i : Nat) (l : LineD),
      lv[i]? = some l →
      (colorize_if_more_useful lv l1 l2 c u)[i]? =
        some (if l1 ≤ i ∧ i < l2 ∧ (l.useful < u - bias i ∨ l.color = "") then
          { l with useful := u - bias i, color := c } else l)) ∧
    (∀ (lv : List LineD) (p : String) (bg mx : Score) (i : Nat) (l : LineD),
      lv[i]? = some l →
      (colorize_parentof lv p bg mx)[i]? =
        some (if rsStartsWith p l.color ∧ 0 < l.color.length ∧
            l.useful < bg + (mx - bg) * (l.color.length : Score) / (p.length : Score) - bias i
          then { l with useful :=
            bg + (mx - bg) * (l.color.length : Score) / (p.length : Score) - bias i }
          else l)) ∧
    (∀ (lv : List LineD) (p : String) (bg mx : Score),
      (colorize_parentof lv p bg mx).map LineD.color = lv.map LineD.color) ∧
    (∀ (l : LineD) (u : Score) (c : String),
      (set_useful_for_line l u c).useful = if l.useful < u ∨ u < 0 then u else l.useful) := by
  refine ⟨?_, ?_, ?_, ?_⟩
  · intro lv l1 l2 c u i l hl
    unfold colorize_if_more_useful mapIdxG
    rw [getElem?_mapIdxGo, hl]
    simp only [Option.map_some', Nat.zero_add]
    congr 1
    by_cases h1 : l1 ≤ i ∧ i < l2
    · by_cases h2 : l.useful < u - bias i ∨ l.color = ""
      · rw [if_pos h1, if_pos h2, if_pos ⟨h1.1, h1.2, h2⟩]
      · rw [if_pos h1, if_neg h2, if_neg (by tauto)]
    · rw [if_neg h1, if_neg (by tauto)]
  · intro lv p bg mx i l hl
    unfold colorize_parentof mapIdxG
    rw [getElem?_mapIdxGo, hl]
    simp only [Option.map_some', Nat.zero_add]
    congr 1
    dsimp only
    by_cases h1 : rsStartsWith p l.color ∧ 0 < l.color.length
    · by_cases h2 :
          l.useful < bg + (mx - bg) * (l.color.length : Score) / (p.length : Score) - bias i
      · rw [if_pos h1, if_pos h2, if_pos ⟨h1.1, h1.2, h2⟩]
      · rw [if_pos h1, if_neg h2, if_neg (by tauto)]
    · rw [if_neg h1, if_neg (by tauto)]
  · intro lv p bg mx
    unfold colorize_parentof mapIdxG
    apply map_mapIdxGo
    intro i a
    by_cases h1 : rsStartsWith p a.color ∧ 0 < a.color.length
    · rw [if_pos h1]
      by_cases h2 :
          a.useful < bg + (mx - bg) * (a.color.length : Score) / (p.length : Score) - bias i
      · rw [if_pos h2]
      · rw [if_neg h2]
    · rw [if_neg h1]
  · intro l u c
    unfold set_useful_for_line
    by_cases h : l.useful < u ∨ u < 0
    · rw [if_pos h, if_pos h]
    · rw [if_neg h, if_neg h]

theorem colorizer_write_rule_witness :
    ([{ fid := 0, line_n := 0, line_content := "x", useful := 0, color := "e" }] :
        List LineD)[0]? =
      some { fid := 0, line_n := 0, line_content := "x", useful := 0, color := "e" } ∧
    (colorize_if_more_useful
        [{ fid := 0, line_n := 0, line_content := "x", useful := 0, color := "e" }]
        0 1 "lbl" 3)[0]? =
      some (if 0 ≤ 0 ∧ 0 < 1 ∧ ((0 : Score) < 3 - bias 0 ∨ ("e" : String) = "") then
        { fid := 0, line_n := 0, line_content := "x", useful := 3 - bias 0, color := "lbl" }
        else { fid := 0, line_n := 0, line_content := "x", useful := 0, color := "e" }) :=
  ⟨by decide,
    colorizer_write_rule.1
      [{ fid := 0, line_n := 0, line_content := "x", useful := 0, color := "e" }]
      0 1 "lbl" 3 0
      { fid := 0, line_n := 0, line_content := "x", useful := 0, color := "e" }
      (by decide)⟩

/-! ### Claims C7 and C10: the line store invariants -/

/-- Total number of `Line` records in the store. -/
def totalLines (es : List SEntry) : Nat :=
  (es.map (fun e => e.lines.length)).sum

theorem totalLines_pushEntry (f : FileRec) (ls : List LineD) :
    ∀ es, totalLines (pushEntry es f ls) = totalLines es + ls.length
  | [] => by simp [pushEntry, totalLines]
  | e :: es => by
      by_cases h : e.cpath = f.cpath
      · simp only [pushEntry, if_pos h, totalLines, List.map_cons, List.sum_cons,
          List.length_append]
        omega
      · simp only [pushEntry, if_neg h, totalLines, List.map_cons, List.sum_cons]
        have ih := totalLines_pushEntry f ls es
        simp only [totalLines] at ih
        omega

theorem totalLines_addFile (es : List SEntry) (n : Nat) (f : FileRec) :
    totalLines (addFile es n f) = totalLines es + (initLines n f).length := by
  unfold addFile
  by_cases h : (initLines n f).isEmpty
  · rw [if_pos h]
    have : (initLines n f).length = 0 := by
      rw [List.isEmpty_iff] at h
      simp [h]
    omega
  · rw [if_neg h]
    exact totalLines_pushEntry f (initLines n f) es

theorem totalLines_buildFrom :
    ∀ (files : List FileRec) (es : List SEntry) (n : Nat),
      totalLines (buildFrom es n files) =
        totalLines es + ((files.map (fun f => (rustLines f.content).length)).sum)
  | [], es, n => by simp [buildFrom]
  | f :: rest, es, n => by
      simp only [buildFrom, totalLines_buildFrom rest, totalLines_addFile,
        List.map_cons, List.sum_cons]
      have : (initLines n f).length = (rustLines f.content).length :=
        mapIdxG_length _ _
      omega

/-- Claim C7 (counterexample): for the file content `"a\n"` (which ends
with a newline) the creation loop produces one `Line` record, while the
content split on `'\n'` has two parts (`str::lines()` drops the final
empty segment, it is not `split('\n')`). -/
theorem line_matrix_ce :
    (initLines 0 { cpath := "a", breaker := 0, content := "a\n", syms := [] }).length = 1 ∧
      (splitNl "a\n").length = 2 := by
  constructor
  · decide
  · decide

/-- Claim C7 (amended): the number of `Line` records created for a file
equals the number of lines of its content under Rust `str::lines()`
semantics (split on `'\n'` with the final empty segment after a trailing
newline dropped, one `'\r'` stripped per line); every created record
references its creating file; and the store holds exactly the sum of the
per-file line counts. -/
theorem line_matrix_card :
    (∀ (fid : Nat) (f : FileRec),
      (initLines fid f).length = (rustLines f.content).length ∧
      ∀ l ∈ initLines fid f, l.fid = fid) ∧
    (∀ files : List FileRec,
      totalLines (buildEntries files) =
        ((files.map (fun f => (rustLines f.content).length)).sum)) := by
  constructor
  · intro fid f
    constructor
    · exact mapIdxG_length _ _
    · intro l hl
      have h := (mem_mapIdxGo_iff _ _ _ _).1 hl
      obtain ⟨i, a, _, rfl⟩ := h
      rfl
  · intro files
    have h := totalLines_buildFrom files [] 0
    simpa [buildEntries, totalLines] using h

theorem line_matrix_card_witness :
    (initLines 3 { cpath := "a", breaker := 0, content := "x\ny", syms := [] }).length =
      (rustLines "x\ny").length ∧
    ({ fid := 3, line_n := 0, line_content := "x", useful := 0, color := "" } : LineD).fid = 3 :=
  ⟨(line_matrix_card.1 3 { cpath := "a", breaker := 0, content := "x\ny", syms := [] }).1,
    (line_matrix_card.1 3 { cpath := "a", breaker := 0, content := "x\ny", syms := [] }).2
      { fid := 3, line_n := 0, line_content := "x", useful := 0, color := "" } (by decide)⟩

theorem pushEntry_forall_nonempty (f : FileRec) (ls : List LineD) (hls : ls ≠ []) :
    ∀ es, (∀ e ∈ es, e.lines ≠ []) → ∀ e ∈ pushEntry es f ls, e.lines ≠ []
  | [], _, e, he => by
      simp only [pushEntry, List.mem_singleton] at he
      subst he
      simpa
  | e0 :: es, hes, e, he => by
      by_cases h : e0.cpath = f.cpath
      · simp only [pushEntry, if_pos h, List.mem_cons] at he
        rcases he with rfl | he
        · have := hes e0 (by simp)
          simp only [ne_eq, List.append_eq_nil]
          tauto
        · exact hes e (by simp [he])
      · simp only [pushEntry, if_neg h, List.mem_cons] at he
        rcases he with rfl | he
        · exact hes e (by simp)
        · exact pushEntry_forall_nonempty f ls hls es
            (fun x hx => hes x (by simp [hx])) e he

theorem addFile_forall_nonempty (es : List SEntry) (n : Nat) (f : FileRec)
    (hes : ∀ e ∈ es, e.lines ≠ []) : ∀ e ∈ addFile es n f, e.lines ≠ [] := by
  unfold addFile
  by_cases h : (initLines n f).isEmpty
  · rw [if_pos h]
    exact hes
  · rw [if_neg h]
    have hne : initLines n f ≠ [] := by
      intro hx
      rw [hx] at h
      simp at h
    exact pushEntry_forall_nonempty f (initLines n f) hne es hes

theorem buildFrom_forall_nonempty :
    ∀ (files : List FileRec) (es : List SEntry) (n : Nat),
      (∀ e ∈ es, e.lines ≠ []) → ∀ e ∈ buildFrom es n files, e.lines ≠ []
  | [], es, n, hes => hes
  | f :: rest, es, n, hes =>
      buildFrom_forall_nonempty rest (addFile es n f) (n + 1)
        (addFile_forall_nonempty es n f hes)

theorem findEntry_pushEntry_other (f : FileRec) (ls : List LineD) (c : String)
    (hc : f.cpath ≠ c) :
    ∀ es, findEntry (pushEntry es f ls) c = findEntry es c
  | [] => by
      simp only [pushEntry, findEntry]
      rw [List.find?_cons_of_neg _ (by simpa using hc), List.find?_nil]
  | e :: es => by
      by_cases h : e.cpath = f.cpath
      · have h2 : ¬e.cpath = c := fun hx => hc (h ▸ hx)
        simp only [pushEntry, if_pos h, findEntry]
        rw [List.find?_cons_of_neg _ (by simpa using h2),
          List.find?_cons_of_neg _ (by simpa using h2)]
      · simp only [pushEntry, if_neg h, findEntry]
        by_cases h2 : e.cpath = c
        · rw [List.find?_cons_of_pos _ (by simpa using h2),
            List.find?_cons_of_pos _ (by simpa using h2)]
        · rw [List.find?_cons_of_neg _ (by simpa using h2),
            List.find?_cons_of_neg _ (by simpa using h2)]
          exact findEntry_pushEntry_other f ls c hc es

/-- Claim C10: every entry of the line store is non-empty (created only
when a first line is pushed), and a path all of whose loaded files have
zero lines has no entry at all, so it takes part in no pass and appears
in no output.  The `linevec.len() - 1` index arithmetic of the source
(`colorize_comments_up`, gap closing), which would underflow `usize` on
an empty vector, is therefore never reached with an empty vector. -/
theorem nonempty_linevec_invariant :
    (∀ files : List FileRec, ∀ e ∈ buildEntries files, e.lines ≠ []) ∧
    (∀ (files : List FileRec) (c : String),
      (∀ f ∈ files, f.cpath = c → rustLines f.content = []) →
      findEntry (buildEntries files) c = none) := by
  constructor
  · intro files
    exact buildFrom_forall_nonempty files [] 0 (by simp)
  · intro files c hall
    suffices h : ∀ (fs : List FileRec) (es : List SEntry) (n : Nat),
        (∀ f ∈ fs, f.cpath = c → rustLines f.content = []) →
        findEntry es c = none → findEntry (buildFrom es n fs) c = none by
      exact h files [] 0 hall (by simp [findEntry])
    intro fs
    induction fs with
    | nil => intro es n _ hes; exact hes
    | cons f rest ih =>
        intro es n hfs hes
        simp only [buildFrom]
        apply ih _ _ (fun x hx hcx => hfs x (by simp [hx]) hcx)
        unfold addFile
        by_cases hemp : (initLines n f).isEmpty
        · rw [if_pos hemp]
          exact hes
        · rw [if_neg hemp]
          have hfc : f.cpath ≠ c := by
            intro hfc
            have h0 := hfs f (by simp) hfc
            have : initLines n f = [] := by
              unfold initLines
              rw [h0]
              rfl
            rw [this] at hemp
            simp at hemp
          rw [findEntry_pushEntry_other f _ c hfc es]
          exact hes

theorem nonempty_linevec_invariant_witness :
    ({ cpath := "f", breaker := 0, syms := [],
        lines := [{ fid := 0, line_n := 0, line_content := "x", useful := 0, color := "" }] } :
      SEntry).lines ≠ [] ∧
    findEntry (buildEntries [{ cpath := "g", breaker := 0, content := "", syms := [] }]) "g" =
      none :=
  ⟨nonempty_linevec_invariant.1 [{ cpath := "f", breaker := 0, content := "x\n", syms := [] }]
      { cpath := "f", breaker := 0, syms := [],
        lines := [{ fid := 0, line_n := 0, line_content := "x", useful := 0, color := "" }] }
      (by with_unfolding_all decide),
    nonempty_linevec_invariant.2 [{ cpath := "g", breaker := 0, content := "", syms := [] }] "g"
      (by intro f hf hc; simp at hf; rw [hf]; decide)⟩

/-! ### Claim C1: budget respect -/

/-- The token cost of a list of taken lines exactly as the claim states
it: `tokens(line_content)` per line, plus (via the running `seen` set)
`tokens(file_name) + 5` once per distinct file in multi-file mode. -/
def selCost (tok : String → Nat) (sfm : Bool) : List String → List FlatLine → Nat
  | _, [] => 0
  | seen, fl :: rest =>
      (tok fl.line.line_content +
        if seen.contains fl.cpath then 0 else overheadTok tok sfm fl.cpath)
        + selCost tok sfm (fl.cpath :: seen) rest

theorem selCost_congr (tok : String → Nat) (sfm : Bool) :
    ∀ (l : List FlatLine) (seen1 seen2 : List String),
      (∀ c, seen1.contains c = seen2.contains c) →
      selCost tok sfm seen1 l = selCost tok sfm seen2 l
  | [], _, _, _ => rfl
  | fl :: rest, seen1, seen2, h => by
      simp only [selCost, h fl.cpath]
      rw [selCost_congr tok sfm rest (fl.cpath :: seen1) (fl.cpath :: seen2)
        (fun c => by rw [List.contains_cons, List.contains_cons, h c])]

theorem selGo_spec (tok : String → Nat) (limit : Nat) (sfm : Bool) (floor : Score) :
    ∀ (l : List FlatLine) (tc : Nat) (mentioned seq : List String) (taken : List FlatLine),
      tc ≤ limit →
      ∃ nt, (selGo tok limit sfm floor l tc mentioned seq taken).2 = taken ++ nt ∧
        tc + selCost tok sfm mentioned nt ≤ limit ∧
        ∃ k, nt = (l.filter (fun fl => decide (floor < fl.line.useful))).take k
  | [], tc, mentioned, seq, taken, htc =>
      ⟨[], by simp [selGo], by simpa [selCost], 0, by simp⟩
  | fl :: rest, tc, mentioned, seq, taken, htc => by
      by_cases hskip : fl.line.useful ≤ floor
      · obtain ⟨nt, h1, h2, k, h3⟩ :=
          selGo_spec tok limit sfm floor rest tc mentioned seq taken htc
        refine ⟨nt, ?_, h2, k, ?_⟩
        · have hstep : selGo tok limit sfm floor (fl :: rest) tc mentioned seq taken =
              selGo tok limit sfm floor rest tc mentioned seq taken := by
            simp [selGo, hskip]
          rw [hstep, h1]
        · rw [List.filter_cons_of_neg (by simp [hskip]), h3]
      · have hlt : floor < fl.line.useful := lt_of_not_ge hskip
        by_cases hmem : mentioned.contains fl.cpath
        · have hmem' : fl.cpath ∈ mentioned := by simpa using hmem
          by_cases hover : tc + tok fl.line.line_content > limit
          · refine ⟨[], ?_, by simpa [selCost], 0, by simp⟩
            have hstep : selGo tok limit sfm floor (fl :: rest) tc mentioned seq taken =
                (seq, taken) := by
              simp [selGo, hskip, hmem', hover]
            rw [hstep]
            simp
          · obtain ⟨nt, h1, h2, k, h3⟩ :=
              selGo_spec tok limit sfm floor rest (tc + tok fl.line.line_content)
                mentioned seq (taken ++ [fl]) (by omega)
            refine ⟨fl :: nt, ?_, ?_, k + 1, ?_⟩
            · have hstep : selGo tok limit sfm floor (fl :: rest) tc mentioned seq taken =
                  selGo tok limit sfm floor rest (tc + tok fl.line.line_content)
                    mentioned seq (taken ++ [fl]) := by
                simp [selGo, hskip, hmem', hover]
              rw [hstep, h1]
              simp
            · simp only [selCost, if_pos hmem]
              have hc : selCost tok sfm (fl.cpath :: mentioned) nt =
                  selCost tok sfm mentioned nt := by
                apply selCost_congr
                intro c
                rw [List.contains_cons]
                by_cases hcc : (c == fl.cpath) = true
                · have hceq : c = fl.cpath := by simpa using hcc
                  subst hceq
                  simp [hmem']
                · simp only [Bool.not_eq_true] at hcc
                  simp [hcc]
              omega
            · rw [List.filter_cons_of_pos (by simp [hlt]), h3, List.take_succ_cons]
        · have hmem' : fl.cpath ∉ mentioned := by simpa using hmem
          by_cases hover :
              tc + (tok fl.line.line_content + overheadTok tok sfm fl.cpath) > limit
          · refine ⟨[], ?_, by simpa [selCost], 0, by simp⟩
            have hstep : selGo tok limit sfm floor (fl :: rest) tc mentioned seq taken =
                (seq ++ [fl.cpath], taken) := by
              simp [selGo, hskip, hmem', hover]
            rw [hstep]
            simp
          · obtain ⟨nt, h1, h2, k, h3⟩ :=
              selGo_spec tok limit sfm floor rest
                (tc + (tok fl.line.line_content + overheadTok tok sfm fl.cpath))
                (fl.cpath :: mentioned) (seq ++ [fl.cpath]) (taken ++ [fl]) (by omega)
            refine ⟨fl :: nt, ?_, ?_, k + 1, ?_⟩
            · have hstep : selGo tok limit sfm floor (fl :: rest) tc mentioned seq taken =
                  selGo tok limit sfm floor rest
                    (tc + (tok fl.line.line_content + overheadTok tok sfm fl.cpath))
                    (fl.cpath :: mentioned) (seq ++ [fl.cpath]) (taken ++ [fl]) := by
                simp [selGo, hskip, hmem', hover]
              rw [hstep, h1]
              simp
            · simp only [selCost, if_neg hmem]
              omega
            · rw [List.filter_cons_of_pos (by simp [hlt]), h3, List.take_succ_cons]

/-- Claim C1: budget respect.  For every input of stage 7-9 (hence for
every call of the entry points `postprocess_at_results2` /
`postprocess_rag_stage_7_9`), the total token cost of the selection --
`tokens(line_content)` summed over the taken lines plus, in multi-file
mode, `tokens(file_name) + 5` once per distinct file contributing a taken
line (`selCost`) -- is at most `tokens_limit`; and the taken lines are a
prefix of the floor-filtered sorted line list: the selector stops at the
first line whose cost would overflow the budget and never skips ahead. -/
theorem budget_respect (es : List SEntry) (tok : String → Nat) (limit : Nat)
    (sfm : Bool) (floor : Score) :
    selCost tok sfm [] (stage79Sel es tok limit sfm floor).2 ≤ limit ∧
    ∃ k, (stage79Sel es tok limit sfm floor).2 =
      ((stage79Sorted es).filter (fun fl => decide (floor < fl.line.useful))).take k := by
  obtain ⟨nt, h1, h2, k, h3⟩ :=
    selGo_spec tok limit sfm floor (stage79Sorted es) 0 [] [] [] (Nat.zero_le _)
  have h1' : (stage79Sel es tok limit sfm floor).2 = nt := by
    unfold stage79Sel
    simpa using h1
  constructor
  · rw [h1']
    omega
  · exact ⟨k, by rw [h1', h3]⟩

/-! ### Claim C4: excerpt format -/

/-- The (index, content) pairs of the taken lines, indices starting at
`i`. -/
def takenFrom : Nat → List (String × Bool) → List (Nat × String)
  | _, [] => []
  | i, (c, t) :: rest =>
      if t then (i, c) :: takenFrom (i + 1) rest else takenFrom (i + 1) rest

/-- Reference rendering of an excerpt from the taken (index, content)
pairs, given the previous taken index: one elision exactly when the next
taken index exceeds `prev + 1`, then the content plus a newline.  With
the initial `prev = 0` this reproduces the source's leading-elision
behaviour: a leading `"...\n"` appears if and only if the first taken
index is at least 2. -/
def renderChain (prev : Nat) : List (Nat × String) → String
  | [] => ""
  | (i, c) :: rest =>
      (if i > prev + 1 then elision else "") ++ (c ++ "\n") ++ renderChain i rest

/-- The final `prev_line`: the last taken index, or the start value when
nothing is taken. -/
def lastTakenFrom : Nat → Nat → List (String × Bool) → Nat
  | _, p, [] => p
  | i, p, (_, t) :: rest => lastTakenFrom (i + 1) (if t then i else p) rest

theorem emitGo_spec :
    ∀ (pairs : List (String × Bool)) (i : Nat) (st : EmitSt),
      (emitGo i st pairs).out = st.out ++ renderChain st.prev_line (takenFrom i pairs) ∧
      (emitGo i st pairs).prev_line = lastTakenFrom i st.prev_line pairs ∧
      (emitGo i st pairs).last_line =
        (if pairs.isEmpty then st.last_line else i + pairs.length - 1) ∧
      (emitGo i st pairs).anything = (st.anything || !(takenFrom i pairs).isEmpty)
  | [], i, st => by
      simp [emitGo, takenFrom, renderChain, lastTakenFrom, String.append_empty]
  | (c, t) :: rest, i, st => by
      by_cases ht : t = true
      · subst ht
        obtain ⟨ih1, ih2, ih3, ih4⟩ := emitGo_spec rest (i + 1)
          { out := (if i > st.prev_line + 1 then st.out ++ elision else st.out) ++ c ++ "\n",
            first_line := if st.first_line = 0 then i else st.first_line,
            last_line := i, prev_line := i, anything := true }
        have hstep : emitGo i st ((c, true) :: rest) =
            emitGo (i + 1)
              { out := (if i > st.prev_line + 1 then st.out ++ elision else st.out) ++ c ++ "\n",
                first_line := if st.first_line = 0 then i else st.first_line,
                last_line := i, prev_line := i, anything := true } rest := by
          simp [emitGo]
        refine ⟨?_, ?_, ?_, ?_⟩
        · rw [hstep, ih1]
          simp only [takenFrom, if_pos rfl, renderChain]
          by_cases hgap : i > st.prev_line + 1
          · rw [if_pos hgap, if_pos hgap]
            simp [strAppend_assoc]
          · rw [if_neg hgap, if_neg hgap]
            simp [strAppend_assoc, String.empty_append]
        · rw [hstep, ih2]
          simp [lastTakenFrom]
        · rw [hstep, ih3]
          rcases rest with _ | ⟨r, rest⟩ <;> simp [List.isEmpty] <;> omega
        · rw [hstep, ih4]
          simp [takenFrom]
      · have ht' : t = false := by simpa using ht
        subst ht'
        obtain ⟨ih1, ih2, ih3, ih4⟩ := emitGo_spec rest (i + 1) { st with last_line := i }
        have hstep : emitGo i st ((c, false) :: rest) =
            emitGo (i + 1) { st with last_line := i } rest := by
          simp [emitGo]
        refine ⟨?_, ?_, ?_, ?_⟩
        · rw [hstep, ih1]
          simp [takenFrom]
        · rw [hstep, ih2]
          simp [lastTakenFrom]
        · rw [hstep, ih3]
          rcases rest with _ | ⟨r, rest⟩ <;> simp [List.isEmpty] <;> omega
        · rw [hstep, ih4]
          simp [takenFrom]

/-- Claim C4 (amended): the emitted excerpt text for one file is exactly
`renderChain 0` of the taken (index, content) pairs, plus one trailing
elision when at least two untaken lines follow the last taken one.
Consequences (all visible in `renderChain`): kept lines appear in
ascending file order; between two consecutive taken lines exactly one
`"...\n"` is emitted whenever at least one untaken line separates them
(in particular for gaps of two or more); a leading `"...\n"` is emitted
exactly when the first taken index is at least 2 (the loop starts with
`prev_line = 0`), so leading untaken lines can produce output and an
excerpt can begin with `"..."` without kept content before it; and an
excerpt is produced at all exactly when some line is taken. -/
theorem excerpt_format (pairs : List (String × Bool)) :
    (emitFile pairs).out =
      renderChain 0 (takenFrom 0 pairs) ++
        (if pairs.length - 1 > lastTakenFrom 0 0 pairs + 1 then elision else "") ∧
    ((emitFile pairs).anything = true ↔ takenFrom 0 pairs ≠ []) := by
  obtain ⟨h1, h2, h3, h4⟩ :=
    emitGo_spec pairs 0 (⟨"", 0, 0, 0, false⟩ : EmitSt)
  have hlast : (emitGo 0 (⟨"", 0, 0, 0, false⟩ : EmitSt) pairs).last_line =
      pairs.length - 1 := by
    rw [h3]
    rcases pairs with _ | ⟨p, pairs⟩ <;> simp [List.isEmpty]
  constructor
  · unfold emitFile
    by_cases hc : pairs.length - 1 >
        lastTakenFrom 0 0 pairs + 1
    · rw [if_pos (by rw [hlast, h2]; exact hc)]
      simp only [h1, String.empty_append, if_pos hc]
    · rw [if_neg (by rw [hlast, h2]; exact hc)]
      simp only [h1, String.empty_append, if_neg hc, String.append_empty]
  · unfold emitFile
    have hany : ∀ b : EmitSt,
        (if b.last_line > b.prev_line + 1 then { b with out := b.out ++ elision } else b).anything
          = b.anything := by
      intro b
      by_cases hb : b.last_line > b.prev_line + 1
      · rw [if_pos hb]
      · rw [if_neg hb]
    rw [hany, h4]
    rcases h : takenFrom 0 pairs with _ | ⟨q, qs⟩ <;> simp

/-- The concrete stage 7-9 input for the claim C4 counterexample: one
file of three lines with scores 1, 1, 5 and a budget of one 1-token
line, so only the third line is taken. -/
def eThree : SEntry :=
  { cpath := "f", breaker := 0, syms := [],
    lines :=
      [{ fid := 0, line_n := 0, line_content := "a", useful := 1, color := "e" },
       { fid := 0, line_n := 1, line_content := "b", useful := 1, color := "e" },
       { fid := 0, line_n := 2, line_content := "c", useful := 5, color := "e" }] }

/-- Claim C4 (counterexample): with only line index 2 taken, stage 9
emits the excerpt `"...\nc\n"`: the two leading untaken lines produce a
leading elision (because `prev_line` starts at 0 and `2 > 0 + 1`), so an
excerpt can begin with `"..."` with no kept content on the other side,
contradicting the claimed `leading untaken lines produce no output`. -/
theorem excerpt_format_ce :
    postprocess_rag_stage_7_9 [eThree] (fun _ => 1) 1 true 0 =
      [{ file_name := "f", file_content := elision ++ "c\n", line1 := 2, line2 := 2 }] := by
  with_unfolding_all decide

/-! ### Length preservation through the pipeline -/

theorem length_colorize (lv : List LineD) (l1 l2 : Nat) (c : String) (u : Score) :
    (colorize_if_more_useful lv l1 l2 c u).length = lv.length :=
  mapIdxG_length _ _

theorem length_minus_one (lv : List LineD) (l1 l2 : Nat) :
    (colorize_minus_one lv l1 l2).length = lv.length :=
  mapIdxG_length _ _

theorem length_parentof (lv : List LineD) (p : String) (bg mx : Score) :
    (colorize_parentof lv p bg mx).length = lv.length :=
  mapIdxG_length _ _

theorem length_downgrade (lv : List LineD) (l1 l2 : Nat) (sub : String) (coef : Score) :
    (downgrade_lines_if_subsymbol lv l1 l2 sub coef).length = lv.length :=
  mapIdxG_length _ _

theorem length_gradient (h : Hint) (lv : List LineD) :
    (color_with_gradient_type h lv).length = lv.length := by
  unfold color_with_gradient_type
  by_cases hg : h.gradient_type < 0 ∨ h.gradient_type > 4
  · rw [if_pos hg]
  · rw [if_neg hg]
    exact mapIdxG_length _ _

theorem length_comments_up (coef : Score) :
    ∀ lv : List LineD, (colorize_comments_up coef lv).length = lv.length
  | [] => rfl
  | [l] => rfl
  | l :: l2 :: rest => by
      have ih := length_comments_up coef (l2 :: rest)
      unfold colorize_comments_up
      rcases hx : colorize_comments_up coef (l2 :: rest) with _ | ⟨nx, r2⟩
      · rw [hx] at ih
        simp at ih
      · rw [hx] at ih
        simp only [List.length_cons] at ih ⊢
        omega

theorem length_close_gaps_go (left : Score) :
    ∀ lv : List LineD, (close_gaps_go left lv).length = lv.length := by
  intro lv
  induction lv generalizing left with
  | nil => rfl
  | cons m rest ih =>
      rcases rest with _ | ⟨r, rest⟩
      · rfl
      · simp only [close_gaps_go, List.length_cons, ih m.useful]

theorem length_close_gaps :
    ∀ lv : List LineD, (close_gaps lv).length = lv.length
  | [] => rfl
  | l :: rest => by
      simp only [close_gaps, List.length_cons, length_close_gaps_go]

theorem foldl_length_preserve {β : Type} (f : List LineD → β → List LineD)
    (hf : ∀ lv b, (f lv b).length = lv.length) :
    ∀ (bs : List β) (lv : List LineD), (bs.foldl f lv).length = lv.length
  | [], _ => rfl
  | b :: bs, lv => by
      rw [List.foldl_cons, foldl_length_preserve f hf bs (f lv b), hf]

theorem length_stage3Fill (st : Settings) (syms : List Sym) (lv : List LineD) :
    (stage3Fill st syms lv).length = lv.length := by
  unfold stage3Fill
  rw [length_colorize]
  exact foldl_length_preserve _ (fun lv s => by
    unfold fillOneSym
    by_cases hc : s.isComment
    · rw [if_pos hc, length_colorize]
    · rw [if_neg hc, length_colorize]) syms lv

theorem length_applyHint (st : Settings) (syms : List Sym) (h : Hint) (lv : List LineD) :
    (applyHint st syms lv h).length = lv.length := by
  unfold applyHint
  by_cases h0 : lv.length = 0
  · rw [if_pos h0]
  · rw [if_neg h0]
    have hg := length_gradient h lv
    by_cases hneg : h.usefulness < 0
    · rw [if_pos hneg]
      by_cases hz : h.line1 = 0
      · rw [if_pos hz]
        exact hg
      · rw [if_neg hz, length_minus_one]
        exact hg
    · rw [if_neg hneg, length_comments_up]
      rcases hsym : hintSymbol syms h with _ | s
      · dsimp only
        rw [length_colorize]
        exact hg
      · dsimp only
        by_cases hbody : h.is_body_important
        · rw [if_pos hbody, length_colorize]
          exact hg
        · rw [if_neg hbody]
          by_cases hparts : (splitColons s.symbol_path).length > 1
          · rw [if_pos hparts, length_parentof, length_colorize]
            exact hg
          · rw [if_neg hparts, length_colorize]
            exact hg

theorem length_stage5 (st : Settings) (syms : List Sym) (lv : List LineD) :
    (stage5 st syms lv).length = lv.length := by
  unfold stage5
  exact foldl_length_preserve _ (fun lv s => by
    unfold stage5One
    by_cases h1 : s.defEndByte ≠ 0
    · rw [if_pos h1]
      by_cases h2 : s.defEnd + 1 > max s.defStart (s.declEnd + 1)
      · rw [if_pos h2, length_downgrade]
      · rw [if_neg h2]
    · rw [if_neg h1]) syms lv

theorem length_stage6 (st : Settings) (lv : List LineD) :
    (stage6 st lv).length = lv.length := by
  unfold stage6
  by_cases h : st.close_small_gaps
  · rw [if_pos h, length_close_gaps]
  · rw [if_neg h]

theorem length_runStages (st : Settings) (e : SEntry) (hs : List Hint) :
    (runStages st e hs).length = e.lines.length := by
  unfold runStages
  rw [length_stage6, length_stage5,
    foldl_length_preserve _ (fun lv h => length_applyHint st e.syms h lv) hs,
    length_stage3Fill]

/-! ### The stable sort: permutation, sortedness, tie stability -/

open List

theorem insD_perm {α : Type} (key : α → Score) (x : α) :
    ∀ l : List α, List.Perm (insD key x l) (x :: l)
  | [] => List.Perm.refl _
  | y :: ys => by
      unfold insD
      by_cases h : key y ≤ key x
      · rw [if_pos h]
      · rw [if_neg h]
        exact ((insD_perm key x ys).cons y).trans (List.Perm.swap x y ys)

theorem sortD_perm {α : Type} (key : α → Score) :
    ∀ l : List α, List.Perm (sortD key l) l
  | [] => List.Perm.refl _
  | x :: xs => by
      unfold sortD
      exact (insD_perm key x (sortD key xs)).trans ((sortD_perm key xs).cons x)

theorem insD_sorted {α : Type} (key : α → Score) (x : α) :
    ∀ l : List α, l.Pairwise (fun a b => key b ≤ key a) →
      (insD key x l).Pairwise (fun a b => key b ≤ key a)
  | [], _ => by simp [insD]
  | y :: ys, hp => by
      unfold insD
      by_cases h : key y ≤ key x
      · rw [if_pos h]
        refine List.Pairwise.cons ?_ hp
        intro b hb
        rcases List.mem_cons.1 hb with rfl | hb
        · exact h
        · exact le_trans (List.rel_of_pairwise_cons hp hb) h
      · rw [if_neg h]
        have hys := List.Pairwise.of_cons hp
        refine List.Pairwise.cons ?_ (insD_sorted key x ys hys)
        intro b hb
        have hb2 := (insD_perm key x ys).mem_iff.1 hb
        rcases List.mem_cons.1 hb2 with rfl | hb3
        · exact le_of_not_ge h
        · exact List.rel_of_pairwise_cons hp hb3

theorem sortD_sorted {α : Type} (key : α → Score) :
    ∀ l : List α, (sortD key l).Pairwise (fun a b => key b ≤ key a)
  | [] => List.Pairwise.nil
  | x :: xs => insD_sorted key x (sortD key xs) (sortD_sorted key xs)

theorem filter_insD_pos {α : Type} (key : α → Score) (x : α) (q : Score)
    (hx : (key x == q) = true) :
    ∀ l : List α, l.Pairwise (fun a b => key b ≤ key a) →
      (insD key x l).filter (fun a => key a == q) =
        x :: l.filter (fun a => key a == q)
  | [], _ => by simp [insD, List.filter_cons, hx]
  | y :: ys, hp => by
      unfold insD
      by_cases h : key y ≤ key x
      · rw [if_pos h]
        simp [List.filter_cons, hx]
      · rw [if_neg h]
        have hys := List.Pairwise.of_cons hp
        have hyq : ¬(key y == q) = true := by
          intro hy
          have h1 : key y = q := by simpa using hy
          have h2 : key x = q := by simpa using hx
          rw [h1, h2] at h
          exact h (le_refl q)
        simp [List.filter_cons, hyq, filter_insD_pos key x q hx ys hys]

theorem filter_insD_neg {α : Type} (key : α → Score) (x : α) (q : Score)
    (hx : ¬(key x == q) = true) :
    ∀ l : List α, (insD key x l).filter (fun a => key a == q) =
      l.filter (fun a => key a == q)
  | [] => by simp [insD, List.filter_cons, hx]
  | y :: ys => by
      unfold insD
      by_cases h : key y ≤ key x
      · rw [if_pos h]
        simp [List.filter_cons, hx]
      · rw [if_neg h]
        simp [List.filter_cons, filter_insD_neg key x q hx ys]

theorem filter_sortD {α : Type} (key : α → Score) (q : Score) :
    ∀ l : List α, (sortD key l).filter (fun a => key a == q) =
      l.filter (fun a => key a == q)
  | [] => rfl
  | x :: xs => by
      unfold sortD
      by_cases hx : (key x == q) = true
      · rw [filter_insD_pos key x q hx (sortD key xs) (sortD_sorted key xs),
          filter_sortD key q xs]
        simp [List.filter_cons, hx]
      · rw [filter_insD_neg key x q hx (sortD key xs), filter_sortD key q xs]
        simp [List.filter_cons, hx]

/-! ### Claim C3: disable dominates -/

theorem mem_flatLines {fl : FlatLine} {es : List SEntry} :
    fl ∈ flatLines es ↔ ∃ e ∈ es, fl ∈ entryFlats e := by
  unfold flatLines
  simp only [List.mem_flatten, List.mem_map]
  constructor
  · rintro ⟨s, ⟨e, he, rfl⟩, hs⟩
    exact ⟨e, he, hs⟩
  · rintro ⟨e, he, hfe⟩
    exact ⟨entryFlats e, ⟨e, he, rfl⟩, hfe⟩

theorem mem_entryFlats {fl : FlatLine} {e : SEntry} (h : fl ∈ entryFlats e) :
    fl.cpath = e.cpath ∧ e.lines[fl.idx]? = some fl.line := by
  obtain ⟨i, a, ha, rfl⟩ := (mem_mapIdxGo_iff _ _ _ _).1 h
  exact ⟨rfl, by simpa using ha⟩

/-- Every taken line passes the floor and belongs to the sorted flat
vector. -/
theorem taken_mem_sorted (es : List SEntry) (tok : String → Nat) (limit : Nat)
    (sfm : Bool) (floor : Score) :
    ∀ fl ∈ (stage79Sel es tok limit sfm floor).2,
      floor < fl.line.useful ∧ fl ∈ stage79Sorted es := by
  intro fl hfl
  obtain ⟨nt, h1, h2, k, h3⟩ :=
    selGo_spec tok limit sfm floor (stage79Sorted es) 0 [] [] [] (Nat.zero_le _)
  have hsel : (stage79Sel es tok limit sfm floor).2 = nt := by
    unfold stage79Sel
    simpa using h1
  rw [hsel, h3] at hfl
  have hmem := List.mem_filter.1 (List.mem_of_mem_take hfl)
  exact ⟨by simpa using hmem.2, hmem.1⟩

theorem matchedHints_append_last (resolve : String → String) (hs1 hs2 : List Hint)
    (h : Hint) (hlast : ∀ h2 ∈ hs2, resolve h2.file_name ≠ resolve h.file_name) :
    matchedHints resolve (resolve h.file_name) (hs1 ++ h :: hs2) =
      matchedHints resolve (resolve h.file_name) hs1 ++ [h] := by
  unfold matchedHints
  rw [List.filter_append]
  congr 1
  rw [List.filter_cons_of_pos (by simp)]
  have : (hs2.filter (fun h2 => resolve h2.file_name == resolve h.file_name)) = [] := by
    rw [List.filter_eq_nil_iff]
    intro a ha
    simpa using hlast a ha
  rw [this]

theorem getElem?_minus_one (lv : List LineD) (l1 l2 i : Nat) :
    (colorize_minus_one lv l1 l2)[i]? =
      lv[i]?.map (fun l =>
        if l1 ≤ i ∧ i < l2 then { l with useful := -1, color := "disabled" } else l) := by
  unfold colorize_minus_one mapIdxG
  rw [getElem?_mapIdxGo]
  simp only [Nat.zero_add]

theorem applyHint_neg_useful (st : Settings) (syms : List Sym) (lv : List LineD)
    (h : Hint) (hu : h.usefulness < 0) (hl1 : 1 ≤ h.line1) (i : Nat)
    (hi1 : h.line1 - 1 ≤ i) (hi2 : i < h.line2) (hilen : i < lv.length) :
    ∃ l2, (applyHint st syms lv h)[i]? = some l2 ∧ l2.useful = -1 := by
  unfold applyHint
  rw [if_neg (by omega), if_pos hu, if_neg (by omega)]
  have hlen2 : i < (color_with_gradient_type h lv).length := by
    rw [length_gradient]
    exact hilen
  rw [getElem?_minus_one, List.getElem?_eq_getElem hlen2]
  refine ⟨_, rfl, ?_⟩
  dsimp only
  rw [if_pos ⟨hi1, hi2⟩]

theorem downgrade_nonpos (lv : List LineD) (l1 l2 : Nat) (sub : String) (coef : Score)
    (hc : 0 ≤ coef) (i : Nat) (l : LineD) (hl : lv[i]? = some l) (hu : l.useful ≤ 0) :
    ∃ lres, (downgrade_lines_if_subsymbol lv l1 l2 sub coef)[i]? = some lres ∧
      lres.useful ≤ 0 := by
  unfold downgrade_lines_if_subsymbol mapIdxG
  rw [getElem?_mapIdxGo, hl]
  simp only [Option.map_some', Nat.zero_add]
  refine ⟨_, rfl, ?_⟩
  dsimp only
  split_ifs <;>
    first
      | exact hu
      | exact mul_nonpos_of_nonpos_of_nonneg hu hc

theorem stage5_nonpos (st : Settings) (hc : 0 ≤ st.degrade_body_coef) :
    ∀ (syms : List Sym) (lv : List LineD) (i : Nat) (l : LineD),
      lv[i]? = some l → l.useful ≤ 0 →
      ∃ lres, (stage5 st syms lv)[i]? = some lres ∧ lres.useful ≤ 0
  | [], lv, i, l, hl, hu => ⟨l, hl, hu⟩
  | s :: syms, lv, i, l, hl, hu => by
      have hone : ∃ lres, (stage5One st lv s)[i]? = some lres ∧ lres.useful ≤ 0 := by
        unfold stage5One
        dsimp only
        split_ifs <;>
          first
            | exact downgrade_nonpos lv _ _ _ _ hc i l hl hu
            | exact ⟨l, hl, hu⟩
      obtain ⟨l2, hl2, hu2⟩ := hone
      have hrec := stage5_nonpos st hc syms (stage5One st lv s) i l2 hl2 hu2
      simpa [stage5, List.foldl_cons] using hrec

/-- Claim C3 (amended): a disabled line stays untaken provided the
negative hint is the last hint resolving to its file, gap closing is off,
the body-downgrade coefficient is non-negative, and the take floor is
non-negative.  In general the claimed order independence is false: a
later non-negative hint re-enables the lines (see the counterexample),
because every colorizer write fires when the stored `useful` (-1 for a
disabled line) is smaller than the new value. -/
theorem disable_dominates (st : Settings) (files : List FileRec)
    (hs1 hs2 : List Hint) (h : Hint) (resolve : String → String)
    (tok : String → Nat) (limit : Nat) (sfm : Bool)
    (hu : h.usefulness < 0) (hl1 : 1 ≤ h.line1)
    (hlast : ∀ h2 ∈ hs2, resolve h2.file_name ≠ resolve h.file_name)
    (hgaps : st.close_small_gaps = false)
    (hcoef : 0 ≤ st.degrade_body_coef)
    (hfloor : 0 ≤ st.take_floor) :
    (pipelineTaken st files (hs1 ++ h :: hs2) resolve tok limit sfm).filter
      (fun fl => fl.cpath == resolve h.file_name &&
        (decide (h.line1 - 1 ≤ fl.idx) && decide (fl.idx < h.line2))) = [] := by
  rw [List.filter_eq_nil_iff]
  intro fl hfl hbad
  simp only [Bool.and_eq_true, beq_iff_eq, decide_eq_true_eq] at hbad
  obtain ⟨hcp, hi1, hi2⟩ := hbad
  obtain ⟨hfloor2, hsorted⟩ :=
    taken_mem_sorted (pipelineEntries st files (hs1 ++ h :: hs2) resolve)
      tok limit sfm st.take_floor fl hfl
  have hflat : fl ∈ flatLines (pipelineEntries st files (hs1 ++ h :: hs2) resolve) :=
    (sortD_perm sortKey _).mem_iff.1 hsorted
  obtain ⟨e, he, hfe⟩ := mem_flatLines.1 hflat
  obtain ⟨hcp2, hget⟩ := mem_entryFlats hfe
  obtain ⟨e0, he0, rfl⟩ := List.mem_map.1 he
  have hcp3 : e0.cpath = resolve h.file_name := by
    rw [← hcp, hcp2]
  have hidx : fl.idx < e0.lines.length := by
    have := List.getElem?_eq_some_iff.1 hget
    obtain ⟨hlt, _⟩ := this
    rwa [length_runStages] at hlt
  -- Decompose the hint fold: the negative hint h is applied last.
  have hmatched : matchedHints resolve e0.cpath (hs1 ++ h :: hs2) =
      matchedHints resolve e0.cpath hs1 ++ [h] := by
    rw [hcp3]
    exact matchedHints_append_last resolve hs1 hs2 h hlast
  have hrun : runStages st e0 (matchedHints resolve e0.cpath (hs1 ++ h :: hs2)) =
      stage6 st (stage5 st e0.syms
        (applyHint st e0.syms
          ((matchedHints resolve e0.cpath hs1).foldl (applyHint st e0.syms)
            (stage3Fill st e0.syms e0.lines)) h)) := by
    rw [hmatched]
    simp only [runStages]
    rw [List.foldl_append]
    rfl
  have hlenmid : fl.idx <
      ((matchedHints resolve e0.cpath hs1).foldl (applyHint st e0.syms)
        (stage3Fill st e0.syms e0.lines)).length := by
    rw [foldl_length_preserve _ (fun lv hh => length_applyHint st e0.syms hh lv),
      length_stage3Fill]
    exact hidx
  obtain ⟨l2, hl2, hu2⟩ :=
    applyHint_neg_useful st e0.syms _ h hu hl1 fl.idx hi1 hi2 hlenmid
  obtain ⟨l3, hl3, hu3⟩ :=
    stage5_nonpos st hcoef e0.syms _ fl.idx l2 hl2 (by rw [hu2]; norm_num)
  have hfinal : (runStages st e0 (matchedHints resolve e0.cpath (hs1 ++ h :: hs2)))[fl.idx]?
      = some l3 := by
    rw [hrun]
    unfold stage6
    rw [hgaps]
    simpa using hl3
  rw [hfinal] at hget
  have : fl.line = l3 := by
    injection hget.symm
  rw [this] at hfloor2
  have : st.take_floor < (0 : Score) := lt_of_lt_of_le hfloor2 hu3
  exact absurd hfloor (not_le.2 this)

/-- One file with a single line, and a pair of hints on that line. -/
def fOneLine : FileRec := { cpath := "f", breaker := 0, content := "x\n", syms := [] }

def hNegOne : Hint :=
  { file_name := "f", line1 := 1, line2 := 1, symbol := none,
    gradient_type := -1, usefulness := -1, is_body_important := false }

def hPosOne : Hint :=
  { file_name := "f", line1 := 1, line2 := 1, symbol := none,
    gradient_type := -1, usefulness := 50, is_body_important := false }

/-- Claim C3 (counterexample): the hint order matters.  With the
disabling hint first and a positive hint on the same line second, the
line ends the pipeline with `take = true` (it is in the taken set):
`colorize_if_more_useful` overwrites the stored `-1` because `-1 < 50`,
so a later positive hint re-enables disabled lines, contradicting
`regardless of the order in which the hints are processed`. -/
theorem disable_dominates_ce :
    ("f", 0) ∈ takenIds
      (pipelineTaken Settings.new [fOneLine] [hNegOne, hPosOne] id (fun _ => 1) 100 true) := by
  with_unfolding_all decide

def stGapsOff : Settings := { Settings.new with close_small_gaps := false }

theorem disable_dominates_witness :
    ((-1 : Score) < 0) ∧
    (pipelineTaken stGapsOff [fOneLine] ([] ++ hNegOne :: []) id (fun _ => 1) 100 true).filter
      (fun fl => fl.cpath == id hNegOne.file_name &&
        (decide (hNegOne.line1 - 1 ≤ fl.idx) && decide (fl.idx < hNegOne.line2))) = [] :=
  ⟨by norm_num,
    disable_dominates stGapsOff [fOneLine] [] [] hNegOne id (fun _ => 1) 100 true
      (by with_unfolding_all decide) (by decide) (by simp) rfl
      (by with_unfolding_all decide) (by with_unfolding_all decide)⟩

/-! ### Claim C5: monotonicity in a hint's usefulness -/

/-- Acceptable line colors during the hint phase of a symbol-free file:
non-empty (so `colorize_if_more_useful` follows the pure max rule) and
not `"comment"` (so comment propagation is a no-op). -/
def okColor (c : String) : Prop := c ≠ "" ∧ c ≠ "comment"

/-- The pointwise invariant between a run and the run with a raised
hint: scores ordered, colors acceptable on both sides. -/
def lineLE (a b : LineD) : Prop :=
  a.useful ≤ b.useful ∧ okColor a.color ∧ okColor b.color

/-- `h2` is `h` with the same geometry and a possibly larger usefulness;
a strict raise is allowed for non-negative scores on a hint whose
`gradient_type` is outside `1..4` (below 1 or at least 4): no shape at
all, or the flat shape 0, or the plateau shape 4. -/
def HintLE (h h2 : Hint) : Prop :=
  h.file_name = h2.file_name ∧ h.line1 = h2.line1 ∧ h.line2 = h2.line2 ∧
  h.symbol = h2.symbol ∧ h.gradient_type = h2.gradient_type ∧
  h.is_body_important = h2.is_body_important ∧
  (h.usefulness = h2.usefulness ∨
    (0 ≤ h.usefulness ∧ h.usefulness ≤ h2.usefulness ∧
      (h.gradient_type < 1 ∨ 4 ≤ h.gradient_type)))

theorem gradLabel_ok (g : Int) : okColor (gradLabel g) := by
  have hlen : (gradLabel g).length = 15 + (toString g).length := by
    unfold gradLabel
    rw [String.length_append]
    have h15 : ("gradient_type: " : String).length = 15 := rfl
    omega
  constructor
  · intro hx
    have h2 := congrArg String.length hx
    rw [hlen] at h2
    have h0 : ("" : String).length = 0 := rfl
    omega
  · intro hx
    have h2 := congrArg String.length hx
    rw [hlen] at h2
    have h0 : ("comment" : String).length = 7 := rfl
    omega

theorem forall2_mapIdxGo {α β : Type} (R : α → α → Prop) (S : β → β → Prop)
    (f g : Nat → α → β) (hfg : ∀ i a b, R a b → S (f i a) (g i b)) :
    ∀ (n : Nat) (l1 l2 : List α), List.Forall₂ R l1 l2 →
      List.Forall₂ S (mapIdxGo f n l1) (mapIdxGo g n l2)
  | _, [], [], _ => List.Forall₂.nil
  | n, a :: as, b :: bs, h => by
      rcases h with _ | ⟨hab, hrest⟩
      exact List.Forall₂.cons (hfg n a b hab)
        (forall2_mapIdxGo R S f g hfg (n + 1) as bs hrest)

theorem forall2_lineLE_colors {lv lv2 : List LineD}
    (h : List.Forall₂ lineLE lv lv2) :
    (∀ l ∈ lv, okColor l.color) ∧ ∀ l ∈ lv2, okColor l.color := by
  induction h with
  | nil => exact ⟨by simp, by simp⟩
  | cons hab _ ih =>
      refine ⟨?_, ?_⟩
      · intro l hl
        rcases List.mem_cons.1 hl with rfl | hl
        · exact hab.2.1
        · exact ih.1 l hl
      · intro l hl
        rcases List.mem_cons.1 hl with rfl | hl
        · exact hab.2.2
        · exact ih.2 l hl

theorem colorize_mono (l1 l2 : Nat) (c : String) (hc : okColor c)
    (u u2 : Score) (hu : u ≤ u2) (lv lv2 : List LineD)
    (h : List.Forall₂ lineLE lv lv2) :
    List.Forall₂ lineLE (colorize_if_more_useful lv l1 l2 c u)
      (colorize_if_more_useful lv2 l1 l2 c u2) := by
  unfold colorize_if_more_useful mapIdxG
  refine forall2_mapIdxGo lineLE lineLE _ _ ?_ 0 lv lv2 h
  intro i a b hab
  obtain ⟨hle, hca, hcb⟩ := hab
  by_cases hin : l1 ≤ i ∧ i < l2
  · rw [if_pos hin, if_pos hin]
    by_cases ha2 : a.useful < u - bias i ∨ a.color = ""
    · rw [if_pos ha2]
      by_cases hb2 : b.useful < u2 - bias i ∨ b.color = ""
      · rw [if_pos hb2]
        exact ⟨by simp only; linarith, hc, hc⟩
      · rw [if_neg hb2]
        push_neg at hb2
        exact ⟨by simp only; linarith [hb2.1], hc, hcb⟩
    · rw [if_neg ha2]
      push_neg at ha2
      by_cases hb2 : b.useful < u2 - bias i ∨ b.color = ""
      · rw [if_pos hb2]
        rcases hb2 with hb2 | hb2
        · exact ⟨by simp only; linarith, hca, hc⟩
        · exact absurd hb2 hcb.1
      · rw [if_neg hb2]
        exact ⟨hle, hca, hcb⟩
  · rw [if_neg hin, if_neg hin]
    exact ⟨hle, hca, hcb⟩

theorem set_useful_mono (v v2 : Score) (hv : v ≤ v2) (c : String) (hc : okColor c)
    (a b : LineD) (hab : lineLE a b) :
    lineLE (set_useful_for_line a v c) (set_useful_for_line b v2 c) := by
  obtain ⟨hle, hca, hcb⟩ := hab
  unfold set_useful_for_line
  by_cases ha2 : a.useful < v ∨ v < 0
  · rw [if_pos ha2]
    by_cases hb2 : b.useful < v2 ∨ v2 < 0
    · rw [if_pos hb2]
      exact ⟨hv, hc, hc⟩
    · rw [if_neg hb2]
      push_neg at hb2
      exact ⟨by simp only; linarith [hb2.1], hc, hcb⟩
  · rw [if_neg ha2]
    push_neg at ha2
    by_cases hb2 : b.useful < v2 ∨ v2 < 0
    · rw [if_pos hb2]
      rcases hb2 with hb2 | hb2
      · exact ⟨by simp only; linarith, hca, hc⟩
      · exact absurd hb2 (by linarith [ha2.2])
    · rw [if_neg hb2]
      exact ⟨hle, hca, hcb⟩

theorem gradient_mono (h : Hint) (lv lv2 : List LineD)
    (hrel : List.Forall₂ lineLE lv lv2) :
    List.Forall₂ lineLE (color_with_gradient_type h lv)
      (color_with_gradient_type h lv2) := by
  unfold color_with_gradient_type
  by_cases hg : h.gradient_type < 0 ∨ h.gradient_type > 4
  · rw [if_pos hg, if_pos hg]
    exact hrel
  · rw [if_neg hg, if_neg hg]
    refine forall2_mapIdxGo lineLE lineLE _ _ ?_ 0 lv lv2 hrel
    intro i a b hab
    exact set_useful_mono _ _ (le_refl _) _ (gradLabel_ok _) a b hab

/-- The fade lines through `(x, u)` and `(x + d, 0)` evaluate at `nf` to
`u` times a factor that does not depend on `u` (also when the degenerate
`u = 0` case returns the zero line). -/
theorem lin_eval (x u d nf : Score) (hd : d ≠ 0) :
    nf * (find_line_parameters x u (x + d) 0).1 +
      (find_line_parameters x u (x + d) 0).2 = u * ((d - nf + x) / d) := by
  unfold find_line_parameters
  by_cases hu : u = 0
  · rw [if_pos (Or.inl (by rw [hu]; ring))]
    simp [hu]
  · rw [if_neg (by push_neg; exact ⟨fun hc => hu (by linarith), fun hc => hd (by linarith)⟩)]
    dsimp only
    have hsub : x + d - x = d := by ring
    rw [hsub]
    field_simp
    ring

/-- A clamped fade-line value is monotone in the peak usefulness when the
latter is non-negative. -/
theorem seg_mono (x u u2 nf d : Score) (hd : d ≠ 0) (h0 : 0 ≤ u) (hle : u ≤ u2) :
    max (nf * (find_line_parameters x u (x + d) 0).1 +
        (find_line_parameters x u (x + d) 0).2) 0 ≤
      max (nf * (find_line_parameters x u2 (x + d) 0).1 +
        (find_line_parameters x u2 (x + d) 0).2) 0 := by
  rw [lin_eval x u d nf hd, lin_eval x u2 d nf hd]
  rcases le_or_lt 0 ((d - nf + x) / d) with hK | hK
  · exact max_le_max (mul_le_mul_of_nonneg_right hle hK) (le_refl 0)
  · have h1 : u * ((d - nf + x) / d) ≤ 0 := by nlinarith
    have h2 : u2 * ((d - nf + x) / d) ≤ 0 := by nlinarith
    rw [max_eq_right h1, max_eq_right h2]

/-- Gradient shapes 0 and 4 are pointwise monotone in the hint's
usefulness: shape 0 writes `u - 0.001*n` and shape 4 writes clamped fade
lines whose values scale with `u`. -/
theorem gradient_mono2 (h h2 : Hint)
    (hl1 : h.line1 = h2.line1) (hl2 : h.line2 = h2.line2)
    (hgt : h.gradient_type = h2.gradient_type)
    (hg : h.gradient_type = 0 ∨ h.gradient_type = 4)
    (h0 : 0 ≤ h.usefulness) (hle : h.usefulness ≤ h2.usefulness)
    (lv lv2 : List LineD) (hrel : List.Forall₂ lineLE lv lv2) :
    List.Forall₂ lineLE (color_with_gradient_type h lv)
      (color_with_gradient_type h2 lv2) := by
  have hng : ¬(h.gradient_type < 0 ∨ h.gradient_type > 4) := by
    rcases hg with hg | hg
    · rw [hg]
      decide
    · rw [hg]
      decide
  unfold color_with_gradient_type
  rw [← hgt, ← hl1, ← hl2, if_neg hng, if_neg hng]
  refine forall2_mapIdxGo lineLE lineLE _ _ ?_ 0 lv lv2 hrel
  intro i a b hab
  dsimp only
  refine set_useful_mono _ _ ?_ _ (gradLabel_ok _) a b hab
  rcases hg with hg | hg
  · rw [hg, if_pos (show (0 : Int) = 0 from rfl), if_pos (show (0 : Int) = 0 from rfl)]
    linarith
  · rw [hg,
      if_neg (show ¬(4 : Int) = 0 by decide), if_neg (show ¬(4 : Int) = 0 by decide),
      if_neg (show ¬(4 : Int) = 1 by decide), if_neg (show ¬(4 : Int) = 1 by decide),
      if_neg (show ¬(4 : Int) = 2 by decide), if_neg (show ¬(4 : Int) = 2 by decide),
      if_neg (show ¬(4 : Int) = 3 by decide), if_neg (show ¬(4 : Int) = 3 by decide),
      if_pos (show (4 : Int) = 4 from rfl), if_pos (show (4 : Int) = 4 from rfl)]
    rw [show ((h.line1 : Score) - 50) = (h.line1 : Score) + (-50) from by ring]
    by_cases hn1 : i + 1 < h.line1
    · rw [if_pos hn1, if_pos hn1]
      exact seg_mono _ _ _ _ _ (by norm_num) h0 hle
    · rw [if_neg hn1, if_neg hn1]
      by_cases hmid : h.line1 ≤ i + 1 ∧ i + 1 ≤ h.line2
      · rw [if_pos hmid, if_pos hmid]
      · rw [if_neg hmid, if_neg hmid]
        exact seg_mono _ _ _ _ _ (by norm_num) h0 hle

theorem minus_one_mono (l1 l2 : Nat) (lv lv2 : List LineD)
    (hrel : List.Forall₂ lineLE lv lv2) :
    List.Forall₂ lineLE (colorize_minus_one lv l1 l2)
      (colorize_minus_one lv2 l1 l2) := by
  unfold colorize_minus_one mapIdxG
  refine forall2_mapIdxGo lineLE lineLE _ _ ?_ 0 lv lv2 hrel
  intro i a b hab
  obtain ⟨hle, hca, hcb⟩ := hab
  by_cases hin : l1 ≤ i ∧ i < l2
  · rw [if_pos hin, if_pos hin]
    exact ⟨le_refl _, show okColor "disabled" from ⟨by decide, by decide⟩,
      show okColor "disabled" from ⟨by decide, by decide⟩⟩
  · rw [if_neg hin, if_neg hin]
    exact ⟨hle, hca, hcb⟩

theorem comments_up_id (coef : Score) :
    ∀ lv : List LineD, (∀ l ∈ lv, l.color ≠ "comment") →
      colorize_comments_up coef lv = lv
  | [], _ => rfl
  | [l], _ => rfl
  | l :: l2 :: rest, hall => by
      have ih := comments_up_id coef (l2 :: rest) (fun x hx => hall x (by simp [hx]))
      unfold colorize_comments_up
      rw [ih]
      dsimp only
      rw [if_neg (fun hx => hall l (by simp) hx.1)]

theorem close_gaps_go_mono (lv : List LineD) :
    ∀ (lv2 : List LineD) (left left2 : Score), left ≤ left2 →
      List.Forall₂ lineLE lv lv2 →
      List.Forall₂ lineLE (close_gaps_go left lv) (close_gaps_go left2 lv2) := by
  induction lv with
  | nil =>
      intro lv2 left left2 hl h
      cases h
      exact List.Forall₂.nil
  | cons a as ih =>
      intro lv2 left left2 hl h
      rcases h with _ | ⟨hab, h2⟩
      rename_i b bs
      rcases as with _ | ⟨a2, as2⟩
      · cases h2
        exact List.Forall₂.cons hab List.Forall₂.nil
      · rcases h2 with _ | ⟨hab2, h3⟩
        rename_i b2 bs2
        unfold close_gaps_go
        refine List.Forall₂.cons ?_
          (ih (b2 :: bs2) a.useful b.useful hab.1 (List.Forall₂.cons hab2 h3))
        obtain ⟨hle, hca, hcb⟩ := hab
        refine ⟨?_, hca, hcb⟩
        simp only
        exact max_le_max hle (min_le_min hl hab2.1)

theorem close_gaps_mono (lv lv2 : List LineD) (h : List.Forall₂ lineLE lv lv2) :
    List.Forall₂ lineLE (close_gaps lv) (close_gaps lv2) := by
  rcases h with _ | ⟨hab, h2⟩
  · exact List.Forall₂.nil
  · exact List.Forall₂.cons hab (close_gaps_go_mono _ _ _ _ hab.1 h2)

theorem applyHint_mono (st : Settings) (h h2 : Hint) (hrel : HintLE h h2)
    (lv lv2 : List LineD) (hlv : List.Forall₂ lineLE lv lv2) :
    List.Forall₂ lineLE (applyHint st [] lv h) (applyHint st [] lv2 h2) := by
  obtain ⟨hfn, hl1, hl2, hsym, hgt, hbody, hus⟩ := hrel
  have hlen : lv.length = lv2.length := hlv.length_eq
  unfold applyHint
  by_cases h0 : lv.length = 0
  · rw [if_pos h0, if_pos (show lv2.length = 0 by omega)]
    exact hlv
  · rw [if_neg h0, if_neg (show ¬lv2.length = 0 by omega)]
    dsimp only
    have hgrad : List.Forall₂ lineLE (color_with_gradient_type h lv)
        (color_with_gradient_type h2 lv2) := by
      by_cases hgr : h.gradient_type < 0 ∨ h.gradient_type > 4
      · unfold color_with_gradient_type
        rw [if_pos hgr, if_pos (by rw [← hgt]; exact hgr)]
        exact hlv
      · rcases hus with hueq | ⟨hge, hle2, hout⟩
        · have h2eq : h2 = h := by
            cases h
            cases h2
            simp only at hfn hl1 hl2 hsym hgt hbody hueq
            simp [hfn, hl1, hl2, hsym, hgt, hbody, hueq]
          rw [h2eq]
          exact gradient_mono h lv lv2 hlv
        · have hg04 : h.gradient_type = 0 ∨ h.gradient_type = 4 := by
            push_neg at hgr
            rcases hout with hout | hout
            · left
              omega
            · right
              omega
          exact gradient_mono2 h h2 hl1 hl2 hgt hg04 hge hle2 lv lv2 hlv
    by_cases hneg : h.usefulness < 0
    · have hneg2 : h2.usefulness < 0 := by
        rcases hus with hueq | ⟨hge, _, _⟩
        · rw [← hueq]
          exact hneg
        · linarith
      rw [if_pos hneg, if_pos hneg2, ← hl1, ← hl2]
      by_cases hz : h.line1 = 0
      · rw [if_pos hz, if_pos hz]
        exact hgrad
      · rw [if_neg hz, if_neg hz]
        exact minus_one_mono _ _ _ _ hgrad
    · have hneg2 : ¬h2.usefulness < 0 := by
        rcases hus with hueq | ⟨hge, hle2, _⟩
        · rw [← hueq]
          exact hneg
        · intro hx
          linarith
      rw [if_neg hneg, if_neg hneg2]
      have hsy1 : hintSymbol [] h = none := by
        unfold hintSymbol
        rcases hh : h.symbol with _ | g
        · rfl
        · rfl
      have hsy2 : hintSymbol [] h2 = none := by
        unfold hintSymbol
        rcases hh : h2.symbol with _ | g
        · rfl
        · rfl
      rw [hsy1, hsy2]
      dsimp only
      have husle : h.usefulness ≤ h2.usefulness := by
        rcases hus with hueq | ⟨_, hle2, _⟩
        · rw [hueq]
        · exact hle2
      rw [← hl1, ← hl2]
      have hcol := colorize_mono (max h.line1 1 - 1) h.line2 "nosymb"
        ⟨by decide, by decide⟩ h.usefulness h2.usefulness husle _ _ hgrad
      have hcolors := forall2_lineLE_colors hcol
      rw [comments_up_id _ _ (fun l hl => (hcolors.1 l hl).2),
        comments_up_id _ _ (fun l hl => (hcolors.2 l hl).2)]
      exact hcol

theorem foldl_applyHint_mono (st : Settings) (hs hs2 : List Hint)
    (hrel : List.Forall₂ HintLE hs hs2) :
    ∀ (lv lv2 : List LineD), List.Forall₂ lineLE lv lv2 →
      List.Forall₂ lineLE (hs.foldl (applyHint st []) lv)
        (hs2.foldl (applyHint st []) lv2) := by
  induction hrel with
  | nil =>
      intro lv lv2 h
      exact h
  | cons hab hrest ih =>
      intro lv lv2 h
      exact ih _ _ (applyHint_mono st _ _ hab lv lv2 h)

theorem background_fill_colors (st : Settings) (lv : List LineD)
    (hcols : ∀ l ∈ lv, l.color = "") :
    ∀ x ∈ stage3Fill st [] lv, x.color = "empty" := by
  intro x hx
  unfold stage3Fill at hx
  simp only [List.foldl_nil] at hx
  unfold colorize_if_more_useful mapIdxG at hx
  obtain ⟨i, a, ha, rfl⟩ := (mem_mapIdxGo_iff _ _ _ _).1 hx
  have hia : a ∈ lv := List.getElem?_mem ha
  have hrange : 0 ≤ 0 + i ∧ 0 + i < lv.length :=
    ⟨Nat.zero_le _, by simpa using (List.getElem?_eq_some_iff.1 ha).1⟩
  rw [if_pos hrange, if_pos (Or.inr (hcols a hia))]

theorem stage3Fill_nosyms_invariant (st : Settings) (lv : List LineD)
    (hcols : ∀ l ∈ lv, l.color = "") :
    List.Forall₂ lineLE (stage3Fill st [] lv) (stage3Fill st [] lv) := by
  rw [List.forall₂_same]
  intro x hx
  have hcx := background_fill_colors st lv hcols x hx
  exact ⟨le_refl _, by rw [hcx]; exact ⟨by decide, by decide⟩,
    by rw [hcx]; exact ⟨by decide, by decide⟩⟩

/-- Claim C5 (amended): for a file without AST symbols and freshly
created lines, replacing the hint list by one that is pointwise
identical except for non-negative usefulness raised on hints whose
`gradient_type` is outside `1..4` (`HintLE`: no shape, the flat shape 0,
or the plateau shape 4) never lowers any line's final score.  The
original take-level claim is false: raising a hint's usefulness reorders
the sort and can evict previously taken lines even when the budget
covers the previous total cost (see the counterexample). -/
theorem monotone_in_score (st : Settings) (e : SEntry)
    (hsyms : e.syms = []) (hcols : ∀ l ∈ e.lines, l.color = "")
    (hs hs2 : List Hint) (hrel : List.Forall₂ HintLE hs hs2) :
    List.Forall₂ (fun a b => a.useful ≤ b.useful)
      (runStages st e hs) (runStages st e hs2) := by
  have hbase := stage3Fill_nosyms_invariant st e.lines hcols
  unfold runStages
  rw [hsyms]
  dsimp only
  have hfold := foldl_applyHint_mono st hs hs2 hrel _ _ hbase
  have hst5 : ∀ lv : List LineD, stage5 st [] lv = lv := fun lv => rfl
  rw [hst5, hst5]
  unfold stage6
  by_cases hcg : st.close_small_gaps
  · rw [if_pos hcg, if_pos hcg]
    exact (close_gaps_mono _ _ hfold).imp (fun a b hab => hab.1)
  · rw [if_neg hcg, if_neg hcg]
    exact hfold.imp (fun a b hab => hab.1)

def fThreeLines : FileRec :=
  { cpath := "f", breaker := 0, content := "a\nb\ncc\n", syms := [] }

/-- A plain one-line hint on 1-based line `l` of file `"f"`. -/
def hOn (l : Nat) (u : Score) : Hint :=
  { file_name := "f", line1 := l, line2 := l, symbol := none,
    gradient_type := -1, usefulness := u, is_body_important := false }

/-- Claim C5 (counterexample): raising one hint's usefulness removes a
previously taken line.  With lines `"a"`, `"b"`, `"cc"` (1, 1, 2 tokens),
budget 2 and hints scoring the lines 10, 7, 6, the selector takes lines
0 and 1 (total cost 2 = budget, so the budget is at least the previous
total).  Raising only the third hint from 6 to 50 re-sorts line 2 first;
it consumes the whole budget and line 0 (and 1) are no longer taken. -/
theorem monotone_in_score_ce :
    (("f", 0) ∈ takenIds (pipelineTaken stGapsOff [fThreeLines]
      [hOn 1 10, hOn 2 7, hOn 3 6] id String.length 2 true)) ∧
    ¬(("f", 0) ∈ takenIds (pipelineTaken stGapsOff [fThreeLines]
      [hOn 1 10, hOn 2 7, hOn 3 50] id String.length 2 true)) := by
  constructor
  · with_unfolding_all decide
  · with_unfolding_all decide

def eOneRaw : SEntry :=
  { cpath := "f", breaker := 0, syms := [],
    lines := [{ fid := 0, line_n := 0, line_content := "x", useful := 0, color := "" }] }

theorem monotone_in_score_witness :
    List.Forall₂ (fun a b => a.useful ≤ b.useful)
      (runStages Settings.new eOneRaw [hOn 1 1])
      (runStages Settings.new eOneRaw [hOn 1 2]) :=
  monotone_in_score Settings.new eOneRaw rfl (by decide) [hOn 1 1] [hOn 1 2]
    (List.Forall₂.cons
      ⟨rfl, rfl, rfl, rfl, rfl, rfl,
        Or.inr ⟨by with_unfolding_all decide, by with_unfolding_all decide,
          Or.inl (by decide)⟩⟩
      List.Forall₂.nil)

/-! ### Claim C2: determinism

The flat `lines_by_useful` vector is built in `HashMap` iteration order
(`files.values()`), which Rust randomizes per process.  The model
quantifies over the entry order: determinism means the stage 7-9 output
is invariant under permuting the entry list.  Rust's `sort_by` is a
stable sort; a stable sort is uniquely determined by being a permutation
of its input, sorted, with every equal-key class in input order.  When
no two lines of different files share a sort key, the equal-key classes
live inside single files, whose internal order does not depend on the
`HashMap` order, so the output is permutation invariant.  When two
cross-file keys collide, the output genuinely depends on the order (see
the counterexample), so the claim as stated is false. -/

/-- A stable descending sort is unique: two sorted permutations of the
same elements that agree on every equal-key class are equal. -/
theorem sorted_unique {α : Type} (key : α → Score) :
    ∀ (l1 l2 : List α), List.Perm l1 l2 →
      l1.Pairwise (fun a b => key b ≤ key a) →
      l2.Pairwise (fun a b => key b ≤ key a) →
      (∀ q, l1.filter (fun a => key a == q) = l2.filter (fun a => key a == q)) →
      l1 = l2
  | [], l2, hp, _, _, _ => (hp.symm.eq_nil).symm
  | a :: l1, l2, hp, hs1, hs2, hf => by
      rcases l2 with _ | ⟨b, l2⟩
      · exact absurd hp.eq_nil (by simp)
      · have hab : a ∈ b :: l2 := hp.mem_iff.1 (by simp)
        have hba : b ∈ a :: l1 := hp.symm.mem_iff.1 (by simp)
        have hkey : key a = key b := by
          have h1 : key a ≤ key b := by
            rcases List.mem_cons.1 hab with rfl | hmem
            · exact le_refl _
            · exact List.rel_of_pairwise_cons hs2 hmem
          have h2 : key b ≤ key a := by
            rcases List.mem_cons.1 hba with rfl | hmem
            · exact le_refl _
            · exact List.rel_of_pairwise_cons hs1 hmem
          exact le_antisymm h1 h2
        have hhead : a = b := by
          have hfa := hf (key a)
          rw [List.filter_cons_of_pos (by simp),
            List.filter_cons_of_pos (by simp [hkey])] at hfa
          injection hfa with h1 _
        subst hhead
        have htail : l1 = l2 := by
          refine sorted_unique key l1 l2 hp.cons_inv hs1.of_cons hs2.of_cons ?_
          intro q
          have hfq := hf q
          by_cases hq : (key a == q) = true
          · simp only [List.filter_cons] at hfq
            rw [if_pos hq, if_pos hq] at hfq
            injection hfq
          · simp only [List.filter_cons] at hfq
            rw [if_neg hq, if_neg hq] at hfq
            exact hfq
        rw [htail]

theorem flatLines_cons (e : SEntry) (es : List SEntry) :
    flatLines (e :: es) = entryFlats e ++ flatLines es := rfl

theorem flatLines_perm {es1 es2 : List SEntry} (h : List.Perm es1 es2) :
    List.Perm (flatLines es1) (flatLines es2) :=
  (h.map entryFlats).flatten

theorem filter_flatLines_perm (q : Score) (es1 es2 : List SEntry)
    (hperm : List.Perm es1 es2) :
    (es1.map SEntry.cpath).Nodup →
    (∀ fl1 ∈ flatLines es1, ∀ fl2 ∈ flatLines es1,
      sortKey fl1 = q → sortKey fl2 = q → fl1.cpath = fl2.cpath) →
    (flatLines es1).filter (fun fl => sortKey fl == q) =
      (flatLines es2).filter (fun fl => sortKey fl == q) := by
  induction hperm with
  | nil =>
      intro _ _
      rfl
  | cons e hp ih =>
      intro hnd hsing
      rw [flatLines_cons, flatLines_cons, List.filter_append, List.filter_append]
      congr 1
      refine ih ?_ ?_
      · simpa using (List.nodup_cons.1 (by simpa using hnd)).2
      · intro fl1 h1 fl2 h2 hq1 hq2
        refine hsing fl1 ?_ fl2 ?_ hq1 hq2
        · rw [flatLines_cons]
          exact List.mem_append_right _ h1
        · rw [flatLines_cons]
          exact List.mem_append_right _ h2
  | swap x y l =>
      intro hnd hsing
      rw [flatLines_cons, flatLines_cons, flatLines_cons, flatLines_cons,
        List.filter_append, List.filter_append, List.filter_append,
        List.filter_append]
      have hxy : y.cpath ≠ x.cpath := by
        have h := hnd
        simp at h
        exact h.1.1
      have hcase :
          (entryFlats y).filter (fun fl => sortKey fl == q) = [] ∨
          (entryFlats x).filter (fun fl => sortKey fl == q) = [] := by
        by_contra hboth
        push_neg at hboth
        obtain ⟨fl1, hfl1⟩ := List.exists_mem_of_ne_nil _ hboth.1
        obtain ⟨fl2, hfl2⟩ := List.exists_mem_of_ne_nil _ hboth.2
        have hm1 := List.mem_filter.1 hfl1
        have hm2 := List.mem_filter.1 hfl2
        have hc1 : fl1.cpath = y.cpath := (mem_entryFlats hm1.1).1
        have hc2 : fl2.cpath = x.cpath := (mem_entryFlats hm2.1).1
        have heq : fl1.cpath = fl2.cpath := by
          refine hsing fl1 ?_ fl2 ?_ (by simpa using hm1.2) (by simpa using hm2.2)
          · rw [flatLines_cons]
            exact List.mem_append_left _ hm1.1
          · rw [flatLines_cons, flatLines_cons]
            exact List.mem_append_right _ (List.mem_append_left _ hm2.1)
        exact hxy (by rw [← hc1, heq, hc2])
      rcases hcase with hc | hc
      · rw [hc]
        simp
      · rw [hc]
        simp
  | trans h1 h2 ih1 ih2 =>
      intro hnd hsing
      rename_i la lb lc
      have hndb : (lb.map SEntry.cpath).Nodup := ((h1.map SEntry.cpath).nodup_iff).1 hnd
      have hsingb : ∀ fl1 ∈ flatLines lb, ∀ fl2 ∈ flatLines lb,
          sortKey fl1 = q → sortKey fl2 = q → fl1.cpath = fl2.cpath := by
        intro fl1 hf1 fl2 hf2 hq1 hq2
        exact hsing fl1 ((flatLines_perm h1).mem_iff.2 hf1)
          fl2 ((flatLines_perm h1).mem_iff.2 hf2) hq1 hq2
      exact (ih1 hnd hsing).trans (ih2 hndb hsingb)

theorem stage79Sorted_perm_eq (es1 es2 : List SEntry)
    (hperm : List.Perm es1 es2) (hnd : (es1.map SEntry.cpath).Nodup)
    (hkeys : ∀ fl1 ∈ flatLines es1, ∀ fl2 ∈ flatLines es1,
      fl1.cpath ≠ fl2.cpath → sortKey fl1 ≠ sortKey fl2) :
    stage79Sorted es1 = stage79Sorted es2 := by
  refine sorted_unique sortKey _ _ ?_ (sortD_sorted sortKey _) (sortD_sorted sortKey _) ?_
  · exact (sortD_perm _ _).trans ((flatLines_perm hperm).trans (sortD_perm _ _).symm)
  · intro q
    unfold stage79Sorted
    rw [filter_sortD, filter_sortD]
    refine filter_flatLines_perm q es1 es2 hperm hnd ?_
    intro fl1 h1 fl2 h2 hq1 hq2
    by_contra hne
    exact hkeys fl1 h1 fl2 h2 hne (by rw [hq1, hq2])

theorem findEntry_perm (es1 es2 : List SEntry) (hperm : List.Perm es1 es2) :
    (es1.map SEntry.cpath).Nodup → ∀ c, findEntry es1 c = findEntry es2 c := by
  induction hperm with
  | nil =>
      intro _ c
      rfl
  | cons e hp ih =>
      intro hnd c
      unfold findEntry
      by_cases hc : e.cpath = c
      · rw [List.find?_cons_of_pos _ (by simpa using hc),
          List.find?_cons_of_pos _ (by simpa using hc)]
      · rw [List.find?_cons_of_neg _ (by simpa using hc),
          List.find?_cons_of_neg _ (by simpa using hc)]
        exact ih (by simpa using (List.nodup_cons.1 (by simpa using hnd)).2) c
  | swap x y l =>
      intro hnd c
      have hxy : y.cpath ≠ x.cpath := by
        have h := hnd
        simp at h
        exact h.1.1
      unfold findEntry
      by_cases hyc : y.cpath = c
      · have hxc : ¬x.cpath = c := fun hx => hxy (hyc.trans hx.symm)
        rw [List.find?_cons_of_pos _ (by simpa using hyc),
          List.find?_cons_of_neg _ (by simpa using hxc),
          List.find?_cons_of_pos _ (by simpa using hyc)]
      · by_cases hxc : x.cpath = c
        · rw [List.find?_cons_of_neg _ (by simpa using hyc),
            List.find?_cons_of_pos _ (by simpa using hxc),
            List.find?_cons_of_pos _ (by simpa using hxc)]
        · rw [List.find?_cons_of_neg _ (by simpa using hyc),
            List.find?_cons_of_neg _ (by simpa using hxc),
            List.find?_cons_of_neg _ (by simpa using hxc),
            List.find?_cons_of_neg _ (by simpa using hyc)]
  | trans h1 h2 ih1 ih2 =>
      intro hnd c
      have hndb := ((h1.map SEntry.cpath).nodup_iff).1 hnd
      exact (ih1 hnd c).trans (ih2 hndb c)

/-- Claim C2 (amended): the stage 7-9 output is invariant under the
`HashMap` iteration order (the entry list order) provided no two lines
of different files share the sort key `useful + symmetry_breaker`.  The
symmetry breaker makes cross-file collisions unlikely, but they are
possible (the scores are ordinary inputs), and then the output depends
on the hash order: see the counterexample. -/
theorem determinism_of_distinct_keys (es1 es2 : List SEntry)
    (hperm : List.Perm es1 es2) (hnd : (es1.map SEntry.cpath).Nodup)
    (hkeys : ∀ fl1 ∈ flatLines es1, ∀ fl2 ∈ flatLines es1,
      fl1.cpath ≠ fl2.cpath → sortKey fl1 ≠ sortKey fl2)
    (tok : String → Nat) (limit : Nat) (sfm : Bool) (floor : Score) :
    postprocess_rag_stage_7_9 es1 tok limit sfm floor =
      postprocess_rag_stage_7_9 es2 tok limit sfm floor := by
  have hsorted := stage79Sorted_perm_eq es1 es2 hperm hnd hkeys
  unfold postprocess_rag_stage_7_9 stage79Sel
  rw [hsorted]
  dsimp only
  congr 1
  funext c
  rw [findEntry_perm es1 es2 hperm hnd c]

def eColA : SEntry :=
  { cpath := "a", breaker := 0, syms := [],
    lines := [{ fid := 0, line_n := 0, line_content := "x", useful := 5, color := "e" }] }

def eColB : SEntry :=
  { cpath := "b", breaker := 1/2, syms := [],
    lines := [{ fid := 1, line_n := 0, line_content := "y", useful := 9/2, color := "e" }] }

/-- Claim C2 (counterexample): with a cross-file sort key collision
(`5 + 0 = 9/2 + 1/2`), the stable sort keeps the `HashMap`-dependent
input order of the two lines, and with a budget of one line the two
orders emit different excerpts -- the output is not a pure function of
the inputs.  The two entry orders stand for two runs whose `HashMap`
iteration orders differ (Rust's `RandomState` randomizes them per
process), all inputs being equal. -/
theorem determinism_ce :
    postprocess_rag_stage_7_9 [eColA, eColB] (fun _ => 1) 1 true 0 ≠
      postprocess_rag_stage_7_9 [eColB, eColA] (fun _ => 1) 1 true 0 := by
  with_unfolding_all decide

def eDisA : SEntry :=
  { cpath := "a", breaker := 0, syms := [],
    lines := [{ fid := 0, line_n := 0, line_content := "x", useful := 5, color := "e" }] }

def eDisB : SEntry :=
  { cpath := "b", breaker := 1/2, syms := [],
    lines := [{ fid := 1, line_n := 0, line_content := "y", useful := 1, color := "e" }] }

theorem determinism_of_distinct_keys_witness :
    postprocess_rag_stage_7_9 [eDisA, eDisB] (fun _ => 1) 1 true 0 =
      postprocess_rag_stage_7_9 [eDisB, eDisA] (fun _ => 1) 1 true 0 :=
  determinism_of_distinct_keys [eDisA, eDisB] [eDisB, eDisA]
    (by with_unfolding_all decide) (by decide)
    (by with_unfolding_all decide) (fun _ => 1) 1 true 0
